import Mathlib

/-!
# Verification of the forrest dependency-resolution engine

Shallow embedding, in Lean 4, of the version-resolution and orchestration
logic of the forrest repository (an npm dependency-graph explorer), together
with theorems settling the specification claims about it.

The embedding covers:
* the registry client's version parsing, comparison, sorting and best-match
  selection (`src/unnamed/part_006`, functions `parseVersion`,
  `compareVersions`, `findBestMatch`, and the version-selection portion of
  `fetchPackageJson`);
* the error taxonomy of the registry fetch (`src/unnamed/part_006`);
* the asynchronous resolution orchestrator of
  `src/unnamed/part_008` (`useDependencyAnalyzer` with explicit pending /
  completed bookkeeping), as a small-step transition system;
* the recursive eager preloader of
  `src/src/hooks/useDependencyAnalyzer.ts` (`preloadDependencies`);
* the fixed-size worker pool of `src/src/services/workerPool.ts` and the
  Redux reducers applying its results.

JavaScript objects used as string-keyed dictionaries are modelled as
insertion-ordered association lists (`List (String × α)`); `Map.set`,
object-spread merge and `Object.keys`/`Object.entries` are given their
JavaScript semantics on that representation.  JavaScript numbers appearing
here are all non-negative integers (version components, counters, HTTP
status codes) and are modelled as `Nat`, except comparator results which are
`Int` as in the source.  `Array.prototype.sort` is modelled as a stable
insertion sort, matching the stability ECMAScript guarantees.
-/

namespace Forrest

/-! ## JavaScript-style string-keyed dictionaries -/

/-- `Map.set` / object key assignment semantics: an existing key keeps its
position and gets the new value, a new key is appended. -/
def jsMapSet {α : Type} (m : List (String × α)) (k : String) (v : α) :
    List (String × α) :=
  if m.any (fun p => p.1 = k) then
    m.map (fun p => if p.1 = k then (k, v) else p)
  else
    m ++ [(k, v)]

/-- Key lookup (`m[k]` / `Map.get`). -/
def jsMapGet {α : Type} (m : List (String × α)) (k : String) : Option α :=
  match m.find? (fun p => p.1 = k) with
  | some p => some p.2
  | none => none

/-- `m.has(k)` / `k in m`. -/
def jsMapHas {α : Type} (m : List (String × α)) (k : String) : Bool :=
  m.any (fun p => p.1 = k)

/-- Object spread merge `{...a, ...b}`: keys of `a` in order (values
overridden by `b` where present), then the new keys of `b` in order. -/
def jsMerge {α : Type} (a b : List (String × α)) : List (String × α) :=
  b.foldl (fun acc p => jsMapSet acc p.1 p.2) a

/-! ## Version parsing and comparison (`src/unnamed/part_006`) -/

/-- Value of a run of leading decimal digits, as `parseInt(m, 10)` computes
it on the digits captured by `(\d+)`. -/
def digitsToNat (ds : List Char) : Nat :=
  ds.foldl (fun n c => n * 10 + (c.toNat - '0'.toNat)) 0

/-- Split a character list into its leading digit run and the remainder. -/
def spanDigits (cs : List Char) : List Char × List Char :=
  (cs.takeWhile Char.isDigit, cs.dropWhile Char.isDigit)

/-- The regex `^(\d+)\.(\d+)\.(\d+)` of `parseVersion`: three non-empty
digit runs separated by literal dots, anchored at the start, arbitrary
suffix allowed. -/
def parseVersionChars (cs : List Char) : Option (Nat × Nat × Nat) :=
  let (d1, r1) := spanDigits cs
  if d1.isEmpty then none else
  match r1 with
  | '.' :: r1' =>
    let (d2, r2) := spanDigits r1'
    if d2.isEmpty then none else
    match r2 with
    | '.' :: r2' =>
      let (d3, _) := spanDigits r2'
      if d3.isEmpty then none else
      some (digitsToNat d1, digitsToNat d2, digitsToNat d3)
    | _ => none
  | _ => none

/-- `parseVersion` of `src/unnamed/part_006`: extract the `(major, minor,
patch)` triple, or `null` when the string does not start with
`\d+.\d+.\d+`. -/
def parseVersion (version : String) : Option (Nat × Nat × Nat) :=
  parseVersionChars version.toList

/-- `compareVersions` of `src/unnamed/part_006`: first differing component
as a signed number, `0` if equal or if either side fails to parse. -/
def compareVersions (a b : String) : Int :=
  match parseVersion a, parseVersion b with
  | some (a0, a1, a2), some (b0, b1, b2) =>
    if a0 ≠ b0 then (a0 : Int) - b0
    else if a1 ≠ b1 then (a1 : Int) - b1
    else if a2 ≠ b2 then (a2 : Int) - b2
    else 0
  | _, _ => 0

/-- Ordered insertion used by the stable sort: `x` goes after every element
comparing `≤ 0` against it, preserving the relative order of ties. -/
def jsSortInsert (cmp : String → String → Int) (x : String) :
    List String → List String
  | [] => [x]
  | y :: ys =>
    if cmp y x ≤ 0 then y :: jsSortInsert cmp x ys else x :: y :: ys

/-- `Array.prototype.sort(cmp)` as a stable insertion sort (ECMAScript
requires sort stability). -/
def jsSort (cmp : String → String → Int) (l : List String) : List String :=
  l.foldl (fun acc x => jsSortInsert cmp x acc) []

/-- The caret-style compatibility test of the `findBestMatch` loop: same
major, and `(minor, patch)` at least the target's. -/
def caretCompatible (tp vp : Nat × Nat × Nat) : Bool :=
  vp.1 = tp.1 ∧ (vp.2.1 > tp.2.1 ∨ (vp.2.1 = tp.2.1 ∧ vp.2.2 ≥ tp.2.2))

/-- The loop-body test of `findBestMatch` on a version string: parse it
(`continue` on failure, i.e. `false`) and apply the caret-compatibility
check against the target triple. -/
def compatOn (tp : Nat × Nat × Nat) (v : String) : Bool :=
  match parseVersion v with
  | none => false
  | some vp => caretCompatible tp vp

/-- `findBestMatch` of `src/unnamed/part_006` (lines 100–136): keep only
strings matching `^\d+\.\d+\.\d+`, sort descending, return the exact target
if present, otherwise the first (hence highest) caret-compatible version,
otherwise the head of the descending sort. -/
def findBestMatch (availableVersions : List String)
    (targetVersion : String) : Option String :=
  if targetVersion = "" ∨ targetVersion = "latest" then none
  else
    let sortedVersions :=
      (jsSort compareVersions
        (availableVersions.filter (fun v => (parseVersion v).isSome))).reverse
    if sortedVersions.contains targetVersion then some targetVersion
    else if targetVersion.toList.contains '.' then
      match parseVersion targetVersion with
      | none => sortedVersions.head?
      | some tp =>
        match sortedVersions.find? (compatOn tp) with
        | some v => some v
        | none => sortedVersions.head?
    else sortedVersions.head?

/-- Highest published version per `availableVersions.sort(compareVersions)
.reverse()[0]` (unfiltered sort, as in the final fallback of
`fetchPackageJson`). -/
def highestUnfiltered (keys : List String) : Option String :=
  ((jsSort compareVersions keys).reverse).head?

/-- The version-selection portion of `fetchPackageJson` in
`src/unnamed/part_006` (lines 36–77), as a pure function of the published
version keys, the `dist-tags.latest` value and the cleaned specifier.
Returns the key whose manifest is used, or `none` when the
`No compatible version found` error is thrown.  An absent or empty
`dist-tags.latest` is falsy in the source and triggers the same fallbacks
as a missing one. -/
def pickVersionKey (keys : List String) (latestTag : Option String)
    (cleanVersion : String) : Option String :=
  let targetVersion :=
    if cleanVersion = "latest" ∨ cleanVersion = "" then
      match latestTag with
      | some t =>
        if t = "" then ((jsSort compareVersions keys).reverse).headD "" else t
      | none => ((jsSort compareVersions keys).reverse).headD ""
    else cleanVersion
  if keys.contains targetVersion then some targetVersion
  else
    match findBestMatch keys targetVersion with
    | some c => some c
    | none =>
      match latestTag with
      | some l =>
        if l ≠ "" ∧ keys.contains l then some l else highestUnfiltered keys
      | none => highestUnfiltered keys

/-- The claim's selection rule, written from the specification's words: among
published versions sharing the target's major version, the *lowest* version
whose `(minor, patch)` pair is `≥` the target's.  Used to compare the spec
against `findBestMatch`. -/
def claimLowestCompatible (availableVersions : List String)
    (targetVersion : String) : Option String :=
  match parseVersion targetVersion with
  | none => none
  | some tp =>
    let candidates := availableVersions.filter (compatOn tp)
    (jsSort compareVersions candidates).head?

/-! ## Manifests, graph nodes and the registry document -/

/-- `PackageJson` (`src/src/types/index.ts`): the manifest shape used for
root input and resolved registry responses.  `dependencies` and
`devDependencies` are optional in the source and defaulted with `|| {}` at
use sites. -/
structure PackageJson where
  name : String
  version : String
  description : Option String := none
  dependencies : Option (List (String × String)) := none
  devDependencies : Option (List (String × String)) := none
  homepage : Option String := none
  repository : Option (String × String) := none
  license : Option String := none
deriving DecidableEq, Repr

/-- `DependencyNode` (`src/src/types/index.ts`, extended shape of
`src/unnamed/part_008`): a graph node keyed by package name.  Boolean flags
absent at a construction site are `false` there. -/
structure DependencyNode where
  name : String
  version : String
  description : Option String := none
  dependencies : List (String × String) := []
  devDependencies : List (String × String) := []
  homepage : Option String := none
  repository : Option (String × String) := none
  license : Option String := none
  loaded : Bool := false
  loading : Bool := false
  childrenLoaded : Bool := false
  hasNoDependencies : Bool := false
deriving DecidableEq, Repr

/-- One entry of the registry metadata document's `versions` map; every
field may be absent. -/
structure VersionManifest where
  name : Option String := none
  version : Option String := none
  description : Option String := none
  dependencies : Option (List (String × String)) := none
  devDependencies : Option (List (String × String)) := none
  homepage : Option String := none
  repository : Option (String × String) := none
  license : Option String := none
deriving DecidableEq, Repr

/-- The registry metadata document `GET {registry}/{name}`: the `versions`
map and `dist-tags.latest` (absent `versions` is the empty map). -/
structure RegistryDoc where
  versions : List (String × VersionManifest) := []
  latestTag : Option String := none
deriving DecidableEq, Repr

/-- An HTTP response for the metadata request: its status code and, for the
success path, the parsed JSON document. -/
structure HttpResponse where
  status : Nat
  doc : RegistryDoc := {}
deriving DecidableEq, Repr

/-! ## Registry client error handling (`src/unnamed/part_006`) -/

/-- The typed error taxonomy of a registry fetch; each constructor stands
for one `throw new Error(...)` site of `fetchPackageJson`. -/
inductive FetchError where
  | notFound : FetchError
  | networkError (status : Nat) : FetchError
  | noVersionsAvailable : FetchError
  | noCompatibleVersion : FetchError
deriving DecidableEq, Repr

/-- `response.ok` of the fetch API: status in the inclusive range 200–299. -/
def responseOk (status : Nat) : Bool := 200 ≤ status ∧ status ≤ 299

/-- `version.replace(/^[\^~>=<\s]+/, '')`: drop the leading run of range
qualifiers and whitespace. -/
def stripRangeChars (v : String) : String :=
  ⟨v.toList.dropWhile (fun c =>
    c = '^' ∨ c = '~' ∨ c = '>' ∨ c = '=' ∨ c = '<' ∨ c.isWhitespace)⟩

/-- `version ? version.replace(...) : 'latest'` — an absent or empty (falsy)
specifier becomes `latest`. -/
def cleanVersionOf (version : Option String) : String :=
  match version with
  | some v => if v = "" then "latest" else stripRangeChars v
  | none => "latest"

/-- JavaScript `a || b` on a possibly-absent string: the fallback applies to
both `undefined` and the falsy empty string. -/
def jsOrString (o : Option String) (d : String) : String :=
  match o with
  | some s => if s = "" then d else s
  | none => d

/-- Step 1 of the version selection in `fetchPackageJson` (lines 36–45):
the target version is the cleaned specifier, with `latest`/empty replaced by
`dist-tags.latest`, falling back to the highest key of the (unfiltered)
descending sort. -/
def targetVersionOf (keys : List String) (latestTag : Option String)
    (cleanVersion : String) : String :=
  if cleanVersion = "latest" ∨ cleanVersion = "" then
    match latestTag with
    | some t =>
      if t = "" then ((jsSort compareVersions keys).reverse).headD "" else t
    | none => ((jsSort compareVersions keys).reverse).headD ""
  else cleanVersion

/-- The manifest assembled from the selected version's metadata (lines
79–88): `name`/`version` default to the request's name and the *target*
version, dependency maps default to empty. -/
def manifestOfVersionData (packageName targetVersion : String)
    (vd : VersionManifest) : PackageJson :=
  { name := jsOrString vd.name packageName
    version := jsOrString vd.version targetVersion
    description := vd.description
    dependencies := some (vd.dependencies.getD [])
    devDependencies := some (vd.devDependencies.getD [])
    homepage := vd.homepage
    repository := vd.repository
    license := vd.license }

/-- `fetchPackageJson` of `src/unnamed/part_006`, as a pure function of the
single HTTP response it performs: non-2xx responses map to `notFound` (404)
or `networkError`, an empty `versions` map to `noVersionsAvailable`, and an
exhausted selection chain to `noCompatibleVersion`.  No retry exists: the
outcome is a function of this one response. -/
def fetchPackageJsonResult (packageName : String) (version : Option String)
    (resp : HttpResponse) : Except FetchError PackageJson :=
  let cleanVersion := cleanVersionOf version
  if ¬ responseOk resp.status then
    if resp.status = 404 then .error .notFound
    else .error (.networkError resp.status)
  else if resp.doc.versions.isEmpty then .error .noVersionsAvailable
  else
    let keys := resp.doc.versions.map Prod.fst
    let target := targetVersionOf keys resp.doc.latestTag cleanVersion
    match pickVersionKey keys resp.doc.latestTag cleanVersion with
    | some k =>
      match jsMapGet resp.doc.versions k with
      | some vd => .ok (manifestOfVersionData packageName target vd)
      | none => .error .noCompatibleVersion
    | none => .error .noCompatibleVersion

/-! ## Non-registry specifiers (modelled from the spec) -/

/-- `pat` is a prefix of the subject character list. -/
def charsStartWith : List Char → List Char → Bool
  | [], _ => true
  | _ :: _, [] => false
  | p :: ps, c :: cs => p = c && charsStartWith ps cs

/-- `s.startsWith pat` on the character level. -/
def strStartsWith (s pat : String) : Bool :=
  charsStartWith pat.toList s.toList

/-- Modelled from the spec: the non-registry URL schemes listed in §3
(VersionSpecifier) and §4.1 step 2.  The current `npmService.ts` holding
this check is not present in the source tree (only the earlier versions
`src/unnamed/part_006` and `part_007`, which predate it, are). -/
def nonRegistryPrefixes : List String :=
  ["file:", "git+", "http://", "https://", "link:", "workspace:"]

/-- Modelled from the spec: a specifier encodes a non-registry source when
it starts with one of the `nonRegistryPrefixes`. -/
def isNonRegistrySpecifier (v : String) : Bool :=
  nonRegistryPrefixes.any (fun p => strStartsWith v p)

/-- Modelled from the spec (§4.1 step 2, scenario 7): resolution of a
dependency specifier.  A non-registry specifier short-circuits to a
synthetic placeholder manifest — empty dependency maps and a description
containing "Local or external dependency" — with no network request;
otherwise the registry is fetched once and `fetchPackageJson` (as in
`src/unnamed/part_006`) processes the response.  The first component counts
the network requests performed. -/
def resolveSpecifier (registry : String → HttpResponse)
    (packageName : String) (version : Option String) :
    Nat × Except FetchError PackageJson :=
  match version with
  | some v =>
    if isNonRegistrySpecifier v then
      (0, .ok { name := packageName, version := v
                description := some ("Local or external dependency: " ++ v)
                dependencies := some [], devDependencies := some [] })
    else (1, fetchPackageJsonResult packageName (some v) (registry packageName))
  | none => (1, fetchPackageJsonResult packageName none (registry packageName))

/-! ## The resolution orchestrator of `src/unnamed/part_008`

`useDependencyAnalyzer` with explicit pending/completed bookkeeping, as a
small-step transition system.  Each React state field becomes a field of
`AnalyzerState`; the `useEffect` blocks (progress recomputation and
completion detection, lines 142–169) run after every transition, as React
runs them after every state change.  Asynchrony is modelled by separating
the start of a fetch (`processPendingDependencies`) from its settlement
(`completeSuccess` / `completeFailure`), whose interleaving is chosen by
the action list.  `activeRequests` is an `Int` because the JavaScript
counter can go negative when a stale completion decrements it after
`analyzeDependencies` reset it to zero.  The fields `inflight`,
`dispatched` and `enqueuedLog` are ghost instrumentation recording which
fetches are outstanding, every fetch ever started and every work item ever
queued; they are written by the transitions but never read by them.
Breadcrumb state is omitted (no claim mentions it). -/

/-- The progress tuple `{current, total, currentPackage, level}`. -/
structure LoadingProgress where
  current : Nat := 0
  total : Nat := 0
  currentPackage : String := ""
  level : Nat := 0
deriving DecidableEq, Repr

/-- A pending work item `{name, version, level}`. -/
structure WorkItem where
  name : String
  version : String
  level : Nat
deriving DecidableEq, Repr

/-- The dedup key `` `${packageName}@${version}` `` used for
`completedDependencies`. -/
def WorkItem.requestId (w : WorkItem) : String := w.name ++ "@" ++ w.version

/-- `Set.add`: append if not already present (JavaScript sets preserve
insertion order). -/
def setAdd (s : List String) (x : String) : List String :=
  if s.contains x then s else s ++ [x]

/-- The two constants of `src/unnamed/part_008` (lines 25–26), kept
abstract so the depth bound can be stated for every configured value. -/
structure AnalyzerConfig where
  maxConcurrentRequests : Nat := 15
  maxDependencyLevels : Nat := 3

/-- The React state of the hook plus ghost instrumentation. -/
structure AnalyzerState where
  packageData : Option PackageJson := none
  dependencies : List (String × DependencyNode) := []
  loading : Bool := false
  error : Option String := none
  progress : LoadingProgress := {}
  showDevDependencies : Bool := false
  activeRequests : Int := 0
  pendingDependencies : List WorkItem := []
  completedDependencies : List String := []
  totalDependenciesToLoad : Nat := 0
  allDiscoveredDependencies : List String := []
  inflight : List WorkItem := []
  dispatched : List WorkItem := []
  enqueuedLog : List WorkItem := []
deriving Repr

/-- The `dfs` helper inside `hasRegularDependencyPathInProgress` (lines
175–188).  The JavaScript version is a nested recursion terminating through
its `visited` set; here its call stack is explicit — a stack of the
sibling name lists still to try — and a fuel argument makes the function
total (any fuel exceeding the number of steps the JavaScript version takes
gives the same answer).  Each step either fails on a visited or absent
name, succeeds when the current node has `targetName` among its regular
dependencies, or descends into the current node's dependency names. -/
def dfsRegularPath (deps : List (String × DependencyNode))
    (targetName : String) :
    Nat → List String → List (List String) → Bool
  | 0, _, _ => false
  | Nat.succ _, _, [] => false
  | Nat.succ fuel, visited, [] :: rest =>
    dfsRegularPath deps targetName fuel visited rest
  | Nat.succ fuel, visited, (n :: ns) :: rest =>
    if visited.contains n then
      dfsRegularPath deps targetName fuel visited (ns :: rest)
    else
      let visited' := visited ++ [n]
      match jsMapGet deps n with
      | none => dfsRegularPath deps targetName fuel visited' (ns :: rest)
      | some node =>
        if jsMapHas node.dependencies targetName then true
        else
          dfsRegularPath deps targetName fuel visited'
            ((node.dependencies.map Prod.fst) :: ns :: rest)

/-- A fuel bound exceeding the step count of the depth-first search: two
steps per map entry and dependency edge, plus slack. -/
def dfsFuelOf (deps : List (String × DependencyNode)) : Nat :=
  2 * deps.foldl (fun a p => a + p.2.dependencies.length + 2) 2

/-- `hasRegularDependencyPathInProgress` (lines 172–191): is `targetName`
reachable as a regular dependency starting from the root package? -/
def hasRegularDependencyPathInProgress (st : AnalyzerState)
    (targetName : String) : Bool :=
  match st.packageData with
  | none => false
  | some pkg =>
    dfsRegularPath st.dependencies targetName
      (dfsFuelOf st.dependencies) [] [[pkg.name]]

/-- `Math.min(...pendingDependencies.map(d => d.level))` on a non-empty
list. -/
def minLevel (l : List WorkItem) : Nat :=
  match l with
  | [] => 0
  | x :: xs => xs.foldl (fun m w => min m w.level) x.level

/-- The visible total of the progress effect (lines 144–149): the running
total when dev dependencies are shown, otherwise only the discovered names
reachable through regular dependencies. -/
def visibleTotal (st : AnalyzerState) : Nat :=
  if st.showDevDependencies then st.totalDependenciesToLoad
  else (st.allDiscoveredDependencies.filter (fun depName =>
    hasRegularDependencyPathInProgress st depName)).length

/-- The progress-publishing part of the `useEffect` block (lines 142–162):
whenever the visible total is positive, publish `current` = completed-set
size, the visible total, the head pending package and the minimum pending
level. -/
def analyzerPublish (c : AnalyzerConfig) (st : AnalyzerState) :
    AnalyzerState :=
  if visibleTotal st > 0 then
    { st with progress :=
        { current := st.completedDependencies.length
          total := visibleTotal st
          currentPackage :=
            ((st.pendingDependencies.head?).map WorkItem.name).getD ""
          level :=
            if st.pendingDependencies.isEmpty then c.maxDependencyLevels
            else minLevel st.pendingDependencies } }
  else st

/-- The completion check of the `useEffect` block (lines 164–168): once
work was seeded and nothing is pending or active, stop loading and zero the
progress. -/
def analyzerComplete (st : AnalyzerState) : AnalyzerState :=
  if st.totalDependenciesToLoad > 0 ∧ st.pendingDependencies.isEmpty
      ∧ st.activeRequests = 0 then
    { st with loading := false, progress := {} }
  else st

/-- The two `useEffect` blocks of lines 142–169 in order. -/
def analyzerEffect (c : AnalyzerConfig) (st : AnalyzerState) :
    AnalyzerState :=
  analyzerComplete (analyzerPublish c st)

/-- The root node built by `analyzeDependencies` (lines 211–223): loaded,
children loaded, no `license` field, `hasNoDependencies` from the regular
dependency map only. -/
def rootNodeOf (pkg : PackageJson) : DependencyNode :=
  { name := pkg.name, version := pkg.version
    description := pkg.description
    dependencies := pkg.dependencies.getD []
    devDependencies := pkg.devDependencies.getD []
    loaded := true, loading := false, childrenLoaded := true
    homepage := pkg.homepage, repository := pkg.repository
    hasNoDependencies := (pkg.dependencies.getD []).isEmpty }

/-- `analyzeDependencies` (lines 197–244): reset the session state, install
the root node without fetching, seed the pending queue at level 1 with the
spread-merge of `dependencies` and (if enabled) `devDependencies`.  The
ghost `inflight`/`dispatched` logs persist: promises started before the
reset are still outstanding. -/
def analyzeDependencies (pkg : PackageJson) (includeDevDeps : Bool)
    (st : AnalyzerState) : AnalyzerState :=
  let deps := pkg.dependencies.getD []
  let devDeps := if includeDevDeps then pkg.devDependencies.getD [] else []
  let allDeps := jsMerge deps devDeps
  let initialDeps := allDeps.map (fun p => ({ name := p.1, version := p.2, level := 1 } : WorkItem))
  { st with
    loading := ¬ allDeps.isEmpty
    error := none
    dependencies := [(pkg.name, rootNodeOf pkg)]
    activeRequests := 0
    pendingDependencies := initialDeps
    completedDependencies := []
    allDiscoveredDependencies := []
    totalDependenciesToLoad := initialDeps.length
    packageData := some pkg
    showDevDependencies := includeDevDeps
    enqueuedLog := st.enqueuedLog ++ initialDeps }

/-- The loop body of `processPendingDependencies` (lines 130–138) together
with the entry of `loadSingleDependency` (lines 28–35): skip items whose
request id is already completed, otherwise increment `activeRequests` and
start the fetch (recorded in the ghost `inflight`/`dispatched` lists). -/
def startWorkItem (st : AnalyzerState) (w : WorkItem) : AnalyzerState :=
  if st.completedDependencies.contains w.requestId then st
  else
    { st with activeRequests := st.activeRequests + 1
              inflight := st.inflight ++ [w]
              dispatched := st.dispatched ++ [w] }

/-- `processPendingDependencies` (lines 120–139): when below the
concurrency limit, remove up to `availableSlots` items from the front of
the queue and start each one. -/
def processPendingDependencies (c : AnalyzerConfig) (st : AnalyzerState) :
    AnalyzerState :=
  if st.activeRequests ≥ (c.maxConcurrentRequests : Int)
      ∨ st.pendingDependencies.isEmpty then st
  else
    let availableSlots := ((c.maxConcurrentRequests : Int) - st.activeRequests).toNat
    let toProcess := st.pendingDependencies.take availableSlots
    let st' := { st with
      pendingDependencies := st.pendingDependencies.drop availableSlots }
    toProcess.foldl startWorkItem st'

/-- The node written on fetch success (lines 40–52). -/
def resolvedNodeOf (w : WorkItem) (m : PackageJson) : DependencyNode :=
  { name := w.name, version := m.version
    description := m.description
    dependencies := m.dependencies.getD []
    devDependencies := m.devDependencies.getD []
    loaded := true, loading := false, childrenLoaded := false
    homepage := m.homepage, repository := m.repository
    hasNoDependencies := (m.dependencies.getD []).isEmpty }

/-- The children a successful completion enqueues (lines 67–92): regular
dependencies, plus dev dependencies when visible, at `level + 1`, filtered
against the completed set, the queue (by name) and the node map (by name),
and against the hard level limit. -/
def newChildItems (c : AnalyzerConfig) (st : AnalyzerState) (w : WorkItem)
    (m : PackageJson) : List WorkItem :=
  let childDeps := (m.dependencies.getD []) ++
    (if st.showDevDependencies then m.devDependencies.getD [] else [])
  (childDeps.map (fun p => ({ name := p.1, version := p.2, level := w.level + 1 } : WorkItem))).filter
    (fun d =>
      ¬ st.completedDependencies.contains d.requestId ∧
      ¬ st.pendingDependencies.any (fun p => p.name = d.name) ∧
      ¬ jsMapHas st.dependencies d.name ∧
      d.level < c.maxDependencyLevels)

/-- The `try` branch of `loadSingleDependency` after the fetch resolves
(lines 38–95) and its `finally` (lines 114–116): write the resolved node,
record discovered names, enqueue filtered children when below
`MAX_DEPENDENCY_LEVELS - 1`, mark the request id completed, decrement the
active count.  A completion only fires for an outstanding fetch. -/
def completeSuccess (c : AnalyzerConfig) (w : WorkItem) (m : PackageJson)
    (st : AnalyzerState) : AnalyzerState :=
  if ¬ st.inflight.contains w then st
  else
    let st0 := { st with inflight := st.inflight.erase w }
    let st1 := { st0 with dependencies := jsMapSet st0.dependencies w.name (resolvedNodeOf w m) }
    let allChildDeps := (m.dependencies.getD []).map Prod.fst ++
      (m.devDependencies.getD []).map Prod.fst
    let st2 := { st1 with allDiscoveredDependencies := allChildDeps.foldl setAdd st1.allDiscoveredDependencies }
    let st3 :=
      if w.level < c.maxDependencyLevels - 1 then
        let newDeps := newChildItems c st2 w m
        if newDeps.isEmpty then st2
        else { st2 with
          pendingDependencies := st2.pendingDependencies ++ newDeps
          totalDependenciesToLoad := st2.totalDependenciesToLoad + newDeps.length
          enqueuedLog := st2.enqueuedLog ++ newDeps }
      else st2
    let st4 := { st3 with completedDependencies := setAdd st3.completedDependencies w.requestId }
    { st4 with activeRequests := st4.activeRequests - 1 }

/-- The error node of the `catch` branch (lines 100–110): description
`Not resolved: <message>`, empty maps, `loaded` true to prevent retries,
`hasNoDependencies` true. -/
def errorNodeOf (w : WorkItem) (msg : String) : DependencyNode :=
  { name := w.name, version := w.version
    description := some ("Not resolved: " ++ msg)
    dependencies := [], devDependencies := []
    loaded := true, loading := false, childrenLoaded := false
    hasNoDependencies := true }

/-- The `catch` branch of `loadSingleDependency` (lines 97–113) and its
`finally`: write the error node, mark completed, decrement the active
count. -/
def completeFailure (w : WorkItem) (msg : String) (st : AnalyzerState) :
    AnalyzerState :=
  if ¬ st.inflight.contains w then st
  else
    let st0 := { st with inflight := st.inflight.erase w }
    let st1 := { st0 with dependencies := jsMapSet st0.dependencies w.name (errorNodeOf w msg) }
    let st2 := { st1 with completedDependencies := setAdd st1.completedDependencies w.requestId }
    { st2 with activeRequests := st2.activeRequests - 1 }

/-- The dev-dependency work items collected when the toggle turns the flag
on (lines 403–426): for every loaded node, its dev dependencies whose name
is not in the node map, whose id is not completed and whose name is not
pending, queued at level 1. -/
def toggleNewDeps (st : AnalyzerState) : List WorkItem :=
  st.dependencies.foldl (fun acc p =>
    if p.2.loaded then
      acc ++ ((p.2.devDependencies.filter (fun d =>
          ¬ jsMapHas st.dependencies d.1 ∧
          ¬ st.completedDependencies.contains (d.1 ++ "@" ++ d.2) ∧
          ¬ st.pendingDependencies.any (fun q => q.name = d.1))).map
        (fun d => ({ name := d.1, version := d.2, level := 1 } : WorkItem)))
    else acc) []

/-- `toggleDevDependencies` (lines 397–437): flip the flag; when enabling
(`newValue` true) with a non-empty collection, queue the collected
dev-dependency items and resume loading. -/
def toggleDevDependencies (st : AnalyzerState) : AnalyzerState :=
  if ! st.showDevDependencies then
    if (toggleNewDeps st).isEmpty then
      { st with showDevDependencies := ! st.showDevDependencies }
    else
      { st with
        showDevDependencies := ! st.showDevDependencies
        loading := true
        pendingDependencies := st.pendingDependencies ++ toggleNewDeps st
        totalDependenciesToLoad :=
          st.totalDependenciesToLoad + (toggleNewDeps st).length
        enqueuedLog := st.enqueuedLog ++ toggleNewDeps st }
  else { st with showDevDependencies := ! st.showDevDependencies }

/-- The observable events of the orchestrator: starting a session,
the scheduler draining the queue, a fetch settling either way, and the
dev-dependency toggle. -/
inductive AnalyzerAction where
  | analyze (pkg : PackageJson) (includeDevDeps : Bool)
  | process
  | succeed (w : WorkItem) (m : PackageJson)
  | fail (w : WorkItem) (msg : String)
  | toggleDev
deriving Repr

/-- One transition followed by the `useEffect` blocks. -/
def analyzerStep (c : AnalyzerConfig) (st : AnalyzerState) :
    AnalyzerAction → AnalyzerState
  | .analyze pkg dev => analyzerEffect c (analyzeDependencies pkg dev st)
  | .process => analyzerEffect c (processPendingDependencies c st)
  | .succeed w m => analyzerEffect c (completeSuccess c w m st)
  | .fail w msg => analyzerEffect c (completeFailure w msg st)
  | .toggleDev => analyzerEffect c (toggleDevDependencies st)

/-- Execute a sequence of events. -/
def analyzerRun (c : AnalyzerConfig) (st : AnalyzerState)
    (acts : List AnalyzerAction) : AnalyzerState :=
  acts.foldl (analyzerStep c) st

/-- Nodes in a terminal status: written by a completed resolution (success
or failure), as opposed to the not-yet-loaded stubs. -/
def terminalCount (deps : List (String × DependencyNode)) : Nat :=
  (deps.filter (fun p => p.2.loaded ∧ ¬ p.2.loading)).length

/-! ## The eager preloader of `src/src/hooks/useDependencyAnalyzer.ts`

The first `useDependencyAnalyzer` in that file: `analyzeDependencies`
installs the root node from the user manifest and calls the recursive
`preloadDependencies` for each root dependency.  The JavaScript recursion
(fetch, write node, `Promise.all` over the children) is serialized
depth-first; its call stack becomes an explicit stack of sibling lists and
a fuel argument makes the function total (any fuel exceeding the number of
steps taken gives the same result).  Note that each top-level call gets a
fresh `visited` set (the default argument is not shared across the root's
dependencies). -/

/-- The graph-and-progress state of the first hook variant. -/
structure TsAnalyzerState where
  dependencies : List (String × DependencyNode) := []
  progress : LoadingProgress := {}
deriving Repr

/-- The error node of the `catch` branch of `preloadDependencies` (lines
65–74): description `Failed to load: <message>`, empty maps,
`hasNoDependencies` true, not loaded. -/
def tsErrorNodeOf (packageName version msg : String) : DependencyNode :=
  { name := packageName, version := version
    description := some ("Failed to load: " ++ msg)
    dependencies := [], devDependencies := []
    loaded := false, loading := false
    hasNoDependencies := true }

/-- The node written on a successful preload fetch (lines 36–47). -/
def tsResolvedNodeOf (packageName : String) (m : PackageJson) :
    DependencyNode :=
  { name := packageName, version := m.version
    description := m.description
    dependencies := m.dependencies.getD []
    devDependencies := m.devDependencies.getD []
    loaded := true, loading := false
    homepage := m.homepage, repository := m.repository
    hasNoDependencies := (m.dependencies.getD []).isEmpty }

/-- The state after the `catch` branch of one failed preload: progress was
published on entry (`visited.size`, `visited.size + 1`), then the error
node is written. -/
def preloadFailState (st : TsAnalyzerState)
    (packageName version msg : String) (level visitedLen : Nat) :
    TsAnalyzerState :=
  { dependencies :=
      jsMapSet st.dependencies packageName
        (tsErrorNodeOf packageName version msg)
    progress := { current := visitedLen, total := visitedLen + 1,
                  currentPackage := packageName, level := level } }

/-- `preloadDependencies` (lines 18–78) over a worklist stack.  Each frame
is the list of `(name, versionSpec, level)` siblings still to process; a
successful fetch pushes the resolved manifest's regular dependencies as a
new frame (dev dependencies are not preloaded by this variant), a failure
or a guard hit (level at the maximum, or the `name@version` key already
visited) moves on to the next sibling.  `fetch` is the outcome of
`fetchPackageJson` for a given name and specifier. -/
def preloadGo (fetch : String → String → Except String PackageJson)
    (maxLevel : Nat) :
    Nat → List (List (String × String × Nat)) → List String →
    TsAnalyzerState → TsAnalyzerState
  | 0, _, _, st => st
  | Nat.succ _, [], _, st => st
  | Nat.succ fuel, [] :: rest, visited, st =>
    preloadGo fetch maxLevel fuel rest visited st
  | Nat.succ fuel, ((packageName, version, currentLevel) :: ns) :: rest,
      visited, st =>
    if currentLevel ≥ maxLevel then
      preloadGo fetch maxLevel fuel (ns :: rest) visited st
    else
      let packageKey := packageName ++ "@" ++ version
      if visited.contains packageKey then
        preloadGo fetch maxLevel fuel (ns :: rest) visited st
      else
        let visited' := visited ++ [packageKey]
        match fetch packageName version with
        | .ok m =>
          let st2 : TsAnalyzerState :=
            { dependencies := jsMapSet st.dependencies packageName
                (tsResolvedNodeOf packageName m)
              progress := { current := visited'.length
                            total := visited'.length + 1
                            currentPackage := packageName
                            level := currentLevel } }
          let children := (m.dependencies.getD []).map
            (fun p => (p.1, p.2, currentLevel + 1))
          preloadGo fetch maxLevel fuel (children :: ns :: rest) visited' st2
        | .error msg =>
          preloadGo fetch maxLevel fuel (ns :: rest) visited'
            (preloadFailState st packageName version msg currentLevel
              visited'.length)

/-- The root node of `analyzeDependencies` (lines 89–100). -/
def tsRootNodeOf (pkg : PackageJson) : DependencyNode :=
  { name := pkg.name, version := pkg.version
    description := pkg.description
    dependencies := pkg.dependencies.getD []
    devDependencies := pkg.devDependencies.getD []
    loaded := true, loading := false
    homepage := pkg.homepage, repository := pkg.repository
    hasNoDependencies := (pkg.dependencies.getD []).isEmpty }

/-- `analyzeDependencies` (lines 80–124): install the root node without
fetching, publish the starting progress, preload each root dependency (each
with a fresh `visited` set, as in the source), then reset progress. -/
def analyzeDependenciesTs (fetch : String → String → Except String PackageJson)
    (fuel : Nat) (pkg : PackageJson) : TsAnalyzerState :=
  let st0 : TsAnalyzerState :=
    { dependencies := [(pkg.name, tsRootNodeOf pkg)], progress := {} }
  let depEntries := pkg.dependencies.getD []
  let st1 :=
    if depEntries.isEmpty then st0
    else { st0 with progress := { current := 0, total := depEntries.length, currentPackage := "Starting preload...", level := 1 } }
  let st2 := depEntries.foldl
    (fun st p => preloadGo fetch 5 fuel [[(p.1, p.2, 1)]] [] st) st1
  { st2 with progress := {} }

/-! ## The expand operation of the second hook variant

`loadDependencies` of the second `useDependencyAnalyzer` in
`src/src/hooks/useDependencyAnalyzer.ts` (lines 348–373): the
click-to-expand entry point, guarded so that an absent, already loaded or
currently loading node is a no-op; otherwise the node is marked loading and
a `LOAD_SINGLE_DEPENDENCY` task is posted to the worker. -/

/-- The graph map plus a ghost log of the worker messages posted. -/
structure HookWorkerState where
  dependencies : List (String × DependencyNode) := []
  postedLog : List String := []
deriving Repr

/-- `loadDependencies` (lines 348–373), with the worker assumed
initialized: guard, mark loading, post the task (ghost-logged by its
`single-<name>` id). -/
def loadDependenciesStep (st : HookWorkerState) (packageName : String) :
    HookWorkerState :=
  match jsMapGet st.dependencies packageName with
  | none => st
  | some currentNode =>
    if currentNode.loaded ∨ currentNode.loading then st
    else
      { dependencies := jsMapSet st.dependencies packageName
          { currentNode with loading := true }
        postedLog := st.postedLog ++ ["single-" ++ packageName] }

/-! ## The worker pool (`src/src/services/workerPool.ts`)

Workers are numbered slots.  Callbacks cannot be stored in a first-order
state, so promise settlements are recorded in a ghost `settledLog`: one
entry per `task.resolve`/`task.reject` call, in order.  `postedLog` records
each `worker.postMessage`. -/

/-- A submitted task: its id and the `FETCH_DEPENDENCY` payload. -/
structure WorkerTask where
  id : String
  packageName : String
  version : String
  showDevDeps : Bool
deriving DecidableEq, Repr

/-- The `FETCH_SUCCESS` payload built by `dependencyWorker`: the resolved
main node, stub child nodes and the package name. -/
structure FetchPayload where
  mainNode : DependencyNode
  childNodes : List (String × DependencyNode)
  packageName : String
deriving DecidableEq, Repr

/-- A message a worker posts back: `FETCH_SUCCESS` with its payload or
`FETCH_ERROR` with the error node, name and message. -/
inductive WorkerResponse where
  | fetchSuccess (id : String) (payload : FetchPayload)
  | fetchError (id : String) (errorNode : DependencyNode)
      (packageName : String) (error : String)
deriving DecidableEq, Repr

/-- The id of a worker response. -/
def WorkerResponse.id : WorkerResponse → String
  | .fetchSuccess id _ => id
  | .fetchError id _ _ _ => id

/-- A promise settlement delivered to a submitter: `task.resolve(payload)`,
`task.reject(response.payload)` on a `FETCH_ERROR`, or
`task.reject(new Error('Worker error: …'))` from `handleWorkerError`. -/
inductive Settlement where
  | resolvedTask (task : WorkerTask) (payload : FetchPayload)
  | rejectedViaResponse (task : WorkerTask) (errorNode : DependencyNode)
      (packageName : String) (error : String)
  | rejectedViaWorkerError (task : WorkerTask) (message : String)
deriving DecidableEq, Repr

/-- `Map.delete k`. -/
def jsMapDelete {α : Type} (m : List (String × α)) (k : String) :
    List (String × α) :=
  m.filter (fun p => ¬ p.1 = k)

/-- The `WorkerPool` fields plus the ghost logs. -/
structure PoolState where
  workers : List Nat := []
  availableWorkers : List Nat := []
  taskQueue : List WorkerTask := []
  activeRequests : List (String × WorkerTask) := []
  settledLog : List Settlement := []
  postedLog : List (Nat × WorkerTask) := []
deriving DecidableEq, Repr

/-- A fresh pool of `maxWorkers` slots (`initializeWorkers`). -/
def mkPool (maxWorkers : Nat) : PoolState :=
  { workers := List.range maxWorkers
    availableWorkers := List.range maxWorkers }

/-- `processNextTask` (lines 77–87): with a queued task and a free worker,
dispatch the queue head to the first free worker. -/
def processNextTask (p : PoolState) : PoolState :=
  match p.taskQueue, p.availableWorkers with
  | t :: ts, w :: ws =>
    { p with taskQueue := ts, availableWorkers := ws
             activeRequests := jsMapSet p.activeRequests t.id t
             postedLog := p.postedLog ++ [(w, t)] }
  | _, _ => p

/-- `handleWorkerMessage` (lines 43–60): look the response id up among the
active requests — an unknown id does nothing at all — then settle the
caller's promise, return the worker to the available list and pull the next
queued task. -/
def handleWorkerMessage (p : PoolState) (worker : Nat)
    (resp : WorkerResponse) : PoolState :=
  match jsMapGet p.activeRequests resp.id with
  | none => p
  | some task =>
    let settlement :=
      match resp with
      | .fetchSuccess _ payload => Settlement.resolvedTask task payload
      | .fetchError _ en pn err => Settlement.rejectedViaResponse task en pn err
    processNextTask
      { p with activeRequests := jsMapDelete p.activeRequests resp.id
               settledLog := p.settledLog ++ [settlement]
               availableWorkers := p.availableWorkers ++ [worker] }

/-- `handleWorkerError` (lines 62–75): reject every active request in the
whole pool, clear the map, return the erroring worker to the available list
(unless already there) and pull the next queued task. -/
def handleWorkerError (p : PoolState) (worker : Nat) (message : String) :
    PoolState :=
  let rejected := p.activeRequests.map
    (fun pr => Settlement.rejectedViaWorkerError pr.2
      ("Worker error: " ++ message))
  let p1 := { p with settledLog := p.settledLog ++ rejected
                     activeRequests := [] }
  let p2 :=
    if p1.availableWorkers.contains worker then p1
    else { p1 with availableWorkers := p1.availableWorkers ++ [worker] }
  processNextTask p2

/-- `fetchDependency` (lines 89–116), with the generated id passed in:
dispatch immediately to a free worker or append to the FIFO queue. -/
def fetchDependency (p : PoolState) (id packageName version : String)
    (showDevDeps : Bool) : PoolState :=
  let task : WorkerTask := ⟨id, packageName, version, showDevDeps⟩
  match p.availableWorkers with
  | w :: ws =>
    { p with availableWorkers := ws
             activeRequests := jsMapSet p.activeRequests id task
             postedLog := p.postedLog ++ [(w, task)] }
  | [] => { p with taskQueue := p.taskQueue ++ [task] }

/-- `terminate` (lines 127–133): discard the workers, the queue and the
active-request map.  No promise is settled. -/
def terminate (p : PoolState) : PoolState :=
  { p with workers := [], availableWorkers := []
           taskQueue := [], activeRequests := [] }

/-! ## The Redux store applying pool results
(second half of `src/src/workers/dependencyWorker.ts`: the dependency
slice built on `workerPool`) -/

/-- The dependency slice state. -/
structure DependencyState where
  nodes : List (String × DependencyNode) := []
  rootPackage : Option String := none
  packageData : Option PackageJson := none
  loading : Bool := false
  error : Option String := none
  progress : LoadingProgress := {}
  showDevDependencies : Bool := false
  activeWorkers : Int := 0
deriving DecidableEq, Repr

/-- The error node the `loadDependency` thunk builds in its `catch` (lines
144–154). -/
def thunkErrorNode (packageName version desc : String) : DependencyNode :=
  { name := packageName, version := version
    description := some ("Failed to load: " ++ desc)
    dependencies := [], devDependencies := []
    loaded := true, loading := false, childrenLoaded := true
    hasNoDependencies := true }

/-- `loadDependency.fulfilled` (lines 481–501): decrement the worker count,
overwrite the main node, add absent child stubs, and close the session when
no workers remain. -/
def loadDependencyFulfilled (st : DependencyState) (payload : FetchPayload) :
    DependencyState :=
  let active := max 0 (st.activeWorkers - 1)
  let nodes1 := jsMapSet st.nodes payload.mainNode.name payload.mainNode
  let nodes2 := payload.childNodes.foldl
    (fun ns p => if jsMapHas ns p.1 then ns else jsMapSet ns p.1 p.2) nodes1
  let st1 := { st with activeWorkers := active, nodes := nodes2 }
  if active = 0 then { st1 with loading := false, progress := {} } else st1

/-- `loadDependency.rejected` (lines 528–541): install the error node and
surface the message, closing the session when no workers remain. -/
def loadDependencyRejected (st : DependencyState)
    (errorNode : DependencyNode) (packageName error : String) :
    DependencyState :=
  let st1 := { st with nodes := jsMapSet st.nodes packageName errorNode
                       error := some error }
  if st1.activeWorkers = 0 then { st1 with loading := false, progress := {} }
  else st1

/-- How a settlement of the `loadDependency` thunk's pool promise reaches
the store: a resolution dispatches `fulfilled`; a rejection is caught by
the thunk, which builds its own error node (a `FETCH_ERROR` payload is not
an `Error`, so the message falls back as in the source) and dispatches
`rejected`. -/
def applySettlement (st : DependencyState) : Settlement → DependencyState
  | .resolvedTask _ payload => loadDependencyFulfilled st payload
  | .rejectedViaResponse task _ _ _ =>
    loadDependencyRejected st
      (thunkErrorNode task.packageName task.version "Package not found")
      task.packageName "Unknown error"
  | .rejectedViaWorkerError task m =>
    loadDependencyRejected st
      (thunkErrorNode task.packageName task.version ("Worker error: " ++ m))
      task.packageName ("Worker error: " ++ m)

/-- Delivery of a worker message to the composed system: the pool processes
it, and each promise it settles reaches the store through the thunk
reducers.  After `terminate` the pool settles nothing, so nothing reaches
the store. -/
def deliverMessage (p : PoolState) (store : DependencyState) (worker : Nat)
    (resp : WorkerResponse) : PoolState × DependencyState :=
  let p' := handleWorkerMessage p worker resp
  (p', (p'.settledLog.drop p.settledLog.length).foldl applySettlement store)

/-! ## Supporting lemmas on the dictionary operations -/

theorem find?_map_upsert_ne {α : Type} (m : List (String × α))
    (k k' : String) (v : α) (h : k' ≠ k) :
    (m.map (fun p => if p.1 = k then (k, v) else p)).find?
        (fun p => p.1 = k') =
      m.find? (fun p => p.1 = k') := by
  induction m with
  | nil => rfl
  | cons x xs ih =>
    by_cases hx : x.1 = k
    · have hx' : ¬ x.1 = k' := by rw [hx]; exact Ne.symm h
      rw [List.map_cons, if_pos hx, List.find?_cons_of_neg _ (by simpa using Ne.symm h),
        List.find?_cons_of_neg _ (by simpa using hx'), ih]
    · by_cases hx' : x.1 = k'
      · rw [List.map_cons, if_neg hx, List.find?_cons_of_pos _ (by simpa using hx'),
          List.find?_cons_of_pos _ (by simpa using hx')]
      · rw [List.map_cons, if_neg hx, List.find?_cons_of_neg _ (by simpa using hx'),
          List.find?_cons_of_neg _ (by simpa using hx'), ih]

theorem find?_map_upsert_self {α : Type} (m : List (String × α))
    (k : String) (v : α) (h : (m.any (fun p => p.1 = k)) = true) :
    (m.map (fun p => if p.1 = k then (k, v) else p)).find?
        (fun p => p.1 = k) = some (k, v) := by
  induction m with
  | nil => simp at h
  | cons x xs ih =>
    by_cases hx : x.1 = k
    · rw [List.map_cons, if_pos hx, List.find?_cons_of_pos]
      simp
    · have hxs : (xs.any (fun p => p.1 = k)) = true := by
        simpa [List.any_cons, hx] using h
      rw [List.map_cons, if_neg hx,
        List.find?_cons_of_neg _ (by simpa using hx), ih hxs]

theorem jsMapGet_set {α : Type} (m : List (String × α)) (k k' : String)
    (v : α) :
    jsMapGet (jsMapSet m k v) k' =
      if k' = k then some v else jsMapGet m k' := by
  unfold jsMapSet jsMapGet
  by_cases hany : (m.any (fun p => p.1 = k)) = true
  · rw [if_pos hany]
    by_cases hk : k' = k
    · subst hk
      rw [find?_map_upsert_self m k' v hany, if_pos rfl]
    · rw [find?_map_upsert_ne m k k' v hk, if_neg hk]
  · rw [if_neg hany]
    by_cases hk : k' = k
    · subst hk
      have hnone : m.find? (fun p => p.1 = k') = none := by
        rw [List.find?_eq_none]
        intro x hx hpx
        exact hany (List.any_eq_true.mpr ⟨x, hx, hpx⟩)
      rw [List.find?_append, hnone, Option.none_or,
        List.find?_cons_of_pos _ (by simp), if_pos rfl]
    · rw [List.find?_append,
        List.find?_cons_of_neg _ (by simpa using fun he => hk he.symm),
        if_neg hk]
      cases m.find? (fun p => p.1 = k') <;> rfl

theorem jsMapGet_set_self {α : Type} (m : List (String × α)) (k : String)
    (v : α) : jsMapGet (jsMapSet m k v) k = some v := by
  rw [jsMapGet_set, if_pos rfl]

theorem jsMapGet_set_ne {α : Type} (m : List (String × α)) (k k' : String)
    (v : α) (h : k' ≠ k) : jsMapGet (jsMapSet m k v) k' = jsMapGet m k' := by
  rw [jsMapGet_set, if_neg h]

theorem jsMapHas_of_get {α : Type} (m : List (String × α)) (k : String)
    (v : α) (h : jsMapGet m k = some v) : jsMapHas m k = true := by
  unfold jsMapGet at h
  unfold jsMapHas
  rcases hf : m.find? (fun p => p.1 = k) with - | p
  · rw [hf] at h; simp at h
  · have hm := List.find?_some hf
    have hmem := List.mem_of_find?_eq_some hf
    exact List.any_eq_true.mpr ⟨p, hmem, hm⟩

/-! ## Claim C2 — non-registry specifiers short-circuit -/

/-- C2: a dependency version specifier starting with `file:`, `git+`,
`http://`, `https://`, `link:` or `workspace:` resolves with zero network
requests, independently of what the registry would answer, to a synthetic
placeholder manifest with empty `dependencies` and `devDependencies` whose
description contains "Local or external dependency". -/
theorem nonregistry_short_circuit
    (registry registry' : String → HttpResponse) (packageName v : String)
    (h : isNonRegistrySpecifier v = true) :
    (resolveSpecifier registry packageName (some v)).1 = 0
  ∧ resolveSpecifier registry packageName (some v) =
      resolveSpecifier registry' packageName (some v)
  ∧ (resolveSpecifier registry packageName (some v)).2 =
      .ok { name := packageName, version := v
            description :=
              some ("Local or external dependency" ++ (": " ++ v))
            dependencies := some [], devDependencies := some [] } := by
  have hlit : ("Local or external dependency" ++ ": " : String) =
      "Local or external dependency: " := by decide
  have hdesc : "Local or external dependency: " ++ v =
      "Local or external dependency" ++ (": " ++ v) := by
    rw [← String.append_assoc, hlit]
  refine ⟨?_, ?_, ?_⟩ <;> simp [resolveSpecifier, h, hdesc]

/-- Witness for C2 at the specifier of scenario 7, `file:../local`. -/
theorem nonregistry_short_circuit_witness :
    isNonRegistrySpecifier "file:../local" = true
  ∧ (resolveSpecifier (fun _ => { status := 500 }) "some-lib"
      (some "file:../local")).1 = 0 := by
  refine ⟨by decide, ?_⟩
  exact (nonregistry_short_circuit (fun _ => { status := 500 })
    (fun _ => { status := 404 }) "some-lib" "file:../local" (by decide)).1

/-! ## Claim C7 — registry fetch error taxonomy -/

/-- C7: the fetch of a package metadata document fails with `notFound`
exactly on HTTP status 404, with `networkError` carrying the status exactly
on the other non-2xx statuses, and with `noVersionsAvailable` exactly when
the response is 2xx and its `versions` map is empty.  The outcome is a pure
function of the single response — this component performs no retry. -/
theorem registry_error_taxonomy (packageName : String)
    (version : Option String) (resp : HttpResponse) :
    (fetchPackageJsonResult packageName version resp = .error .notFound ↔
      resp.status = 404)
  ∧ (∀ s, fetchPackageJsonResult packageName version resp =
        .error (.networkError s) ↔
      (responseOk resp.status = false ∧ s = resp.status ∧ resp.status ≠ 404))
  ∧ (fetchPackageJsonResult packageName version resp =
        .error .noVersionsAvailable ↔
      (responseOk resp.status = true ∧ resp.doc.versions = [])) := by
  have h404 : responseOk 404 = false := by decide
  by_cases hok : responseOk resp.status = true
  · have hne : resp.status ≠ 404 := fun he => by rw [he] at hok; simp [h404] at hok
    by_cases hv : resp.doc.versions.isEmpty = true
    · have hv' : resp.doc.versions = [] := by
        simpa [List.isEmpty_iff] using hv
      simp [fetchPackageJsonResult, hok, hv, hv', hne]
    · have hv' : ¬ resp.doc.versions = [] := by
        simpa [List.isEmpty_iff] using hv
      have hres : (∃ m, fetchPackageJsonResult packageName version resp =
            Except.ok m) ∨
          fetchPackageJsonResult packageName version resp =
            Except.error FetchError.noCompatibleVersion := by
        unfold fetchPackageJsonResult
        simp only [hok, not_true_eq_false, if_false, hv,
          Bool.false_eq_true, if_false]
        split
        · split
          · exact Or.inl ⟨_, rfl⟩
          · exact Or.inr rfl
        · exact Or.inr rfl
      have hcon : ∀ e : FetchError, e ≠ FetchError.noCompatibleVersion →
          fetchPackageJsonResult packageName version resp ≠
            Except.error e := by
        intro e hene hbad
        rcases hres with ⟨m, hm⟩ | hm <;> rw [hm] at hbad
        · exact Except.noConfusion hbad
        · exact hene (Except.error.inj hbad).symm
      refine ⟨⟨fun hc => absurd hc (hcon _ (by simp)),
          fun h4 => absurd h4 hne⟩,
        fun s => ⟨fun hc => absurd hc (hcon _ (by simp)), ?_⟩,
        ⟨fun hc => absurd hc (hcon _ (by simp)),
          fun hrhs => absurd hrhs.2 hv'⟩⟩
      rintro ⟨hfalse, -, -⟩
      rw [hok] at hfalse
      exact Bool.noConfusion hfalse
  · have hok' : responseOk resp.status = false := by
      simpa using hok
    by_cases h4 : resp.status = 404
    · simp [fetchPackageJsonResult, hok', h4, h404]
    · simp [fetchPackageJsonResult, hok', h4, eq_comm]

/-! ## Generic facts about the orchestrator transition system -/

theorem analyzerRun_cons (c : AnalyzerConfig) (st : AnalyzerState)
    (a : AnalyzerAction) (acts : List AnalyzerAction) :
    analyzerRun c st (a :: acts) = analyzerRun c (analyzerStep c st a) acts :=
  rfl

/-- Invariant preservation along a trace whose actions satisfy `cond`. -/
theorem analyzerRun_preserves {P : AnalyzerState → Prop}
    {cond : AnalyzerAction → Prop} (c : AnalyzerConfig)
    (hstep : ∀ st a, cond a → P st → P (analyzerStep c st a)) :
    ∀ (acts : List AnalyzerAction) (st : AnalyzerState),
      (∀ a ∈ acts, cond a) → P st → P (analyzerRun c st acts) := by
  intro acts
  induction acts with
  | nil => intro st _ h; exact h
  | cons a rest ih =>
    intro st hcond h
    rw [analyzerRun_cons]
    exact ih _ (fun b hb => hcond b (List.mem_cons_of_mem a hb))
      (hstep st a (hcond a (List.mem_cons_self a rest)) h)

/-- Publishing progress only writes the `progress` field. -/
theorem analyzerPublish_eq (c : AnalyzerConfig) (st : AnalyzerState) :
    ∃ pr, analyzerPublish c st = { st with progress := pr } := by
  unfold analyzerPublish
  split
  · exact ⟨_, rfl⟩
  · exact ⟨st.progress, rfl⟩

/-- The completion check either does nothing or stops the session. -/
theorem analyzerComplete_eq (st : AnalyzerState) :
    analyzerComplete st = st ∨
    analyzerComplete st = { st with loading := false, progress := {} } := by
  unfold analyzerComplete
  split
  · exact Or.inr rfl
  · exact Or.inl rfl

/-- The `useEffect` blocks only write `loading` and `progress`. -/
theorem analyzerEffect_eq (c : AnalyzerConfig) (st : AnalyzerState) :
    ∃ (l : Bool) (pr : LoadingProgress),
      analyzerEffect c st = { st with loading := l, progress := pr } := by
  obtain ⟨pr, hp⟩ := analyzerPublish_eq c st
  unfold analyzerEffect
  rw [hp]
  rcases analyzerComplete_eq { st with progress := pr } with h | h <;> rw [h]
  · exact ⟨st.loading, pr, rfl⟩
  · exact ⟨false, {}, rfl⟩

/-- The `useEffect` blocks only write `loading` and `progress`. -/
theorem analyzerEffect_preserves (c : AnalyzerConfig) (st : AnalyzerState) :
    (analyzerEffect c st).dependencies = st.dependencies
  ∧ (analyzerEffect c st).pendingDependencies = st.pendingDependencies
  ∧ (analyzerEffect c st).completedDependencies = st.completedDependencies
  ∧ (analyzerEffect c st).inflight = st.inflight
  ∧ (analyzerEffect c st).dispatched = st.dispatched
  ∧ (analyzerEffect c st).enqueuedLog = st.enqueuedLog
  ∧ (analyzerEffect c st).activeRequests = st.activeRequests
  ∧ (analyzerEffect c st).totalDependenciesToLoad =
      st.totalDependenciesToLoad
  ∧ (analyzerEffect c st).allDiscoveredDependencies =
      st.allDiscoveredDependencies
  ∧ (analyzerEffect c st).showDevDependencies = st.showDevDependencies
  ∧ (analyzerEffect c st).packageData = st.packageData := by
  obtain ⟨l, pr, h⟩ := analyzerEffect_eq c st
  rw [h]
  exact ⟨rfl, rfl, rfl, rfl, rfl, rfl, rfl, rfl, rfl, rfl, rfl⟩

/-- `startWorkItem` only touches `activeRequests`, `inflight` and
`dispatched`, and a batch start moves items of the batch into the latter
two. -/
theorem foldl_startWorkItem_fields (l : List WorkItem) (st : AnalyzerState) :
    (l.foldl startWorkItem st).dependencies = st.dependencies
  ∧ (l.foldl startWorkItem st).pendingDependencies = st.pendingDependencies
  ∧ (l.foldl startWorkItem st).completedDependencies =
      st.completedDependencies
  ∧ (l.foldl startWorkItem st).enqueuedLog = st.enqueuedLog
  ∧ (l.foldl startWorkItem st).totalDependenciesToLoad =
      st.totalDependenciesToLoad
  ∧ (l.foldl startWorkItem st).allDiscoveredDependencies =
      st.allDiscoveredDependencies
  ∧ (l.foldl startWorkItem st).showDevDependencies =
      st.showDevDependencies
  ∧ (l.foldl startWorkItem st).packageData = st.packageData
  ∧ (l.foldl startWorkItem st).loading = st.loading
  ∧ (l.foldl startWorkItem st).progress = st.progress
  ∧ (∀ w ∈ (l.foldl startWorkItem st).inflight,
      w ∈ st.inflight ∨ w ∈ l)
  ∧ (∀ w ∈ (l.foldl startWorkItem st).dispatched,
      w ∈ st.dispatched ∨ w ∈ l) := by
  induction l generalizing st with
  | nil =>
    refine ⟨rfl, rfl, rfl, rfl, rfl, rfl, rfl, rfl, rfl, rfl, ?_, ?_⟩ <;>
      exact fun w hw => Or.inl hw
  | cons x xs ih =>
    rw [List.foldl_cons]
    by_cases hc : st.completedDependencies.contains x.requestId = true
    · have hx : startWorkItem st x = st := by
        unfold startWorkItem; rw [if_pos hc]
      rw [hx]
      obtain ⟨h1, h2, h3, h4, h5, h6, h7, h8, h9, h10, h11, h12⟩ := ih st
      refine ⟨h1, h2, h3, h4, h5, h6, h7, h8, h9, h10, ?_, ?_⟩
      · exact fun w hw => (h11 w hw).imp id (List.mem_cons_of_mem x)
      · exact fun w hw => (h12 w hw).imp id (List.mem_cons_of_mem x)
    · have hx : startWorkItem st x =
          { st with activeRequests := st.activeRequests + 1
                    inflight := st.inflight ++ [x]
                    dispatched := st.dispatched ++ [x] } := by
        unfold startWorkItem; rw [if_neg hc]
      rw [hx]
      obtain ⟨h1, h2, h3, h4, h5, h6, h7, h8, h9, h10, h11, h12⟩ :=
        ih { st with activeRequests := st.activeRequests + 1
                     inflight := st.inflight ++ [x]
                     dispatched := st.dispatched ++ [x] }
      refine ⟨h1, h2, h3, h4, h5, h6, h7, h8, h9, h10, ?_, ?_⟩
      · intro w hw
        rcases h11 w hw with h | h
        · rcases List.mem_append.mp h with h' | h'
          · exact Or.inl h'
          · exact Or.inr (by simpa using Or.inl (by simpa using h'))
        · exact Or.inr (List.mem_cons_of_mem x h)
      · intro w hw
        rcases h12 w hw with h | h
        · rcases List.mem_append.mp h with h' | h'
          · exact Or.inl h'
          · exact Or.inr (by simpa using Or.inl (by simpa using h'))
        · exact Or.inr (List.mem_cons_of_mem x h)

/-- The filter of `newChildItems` by construction: an enqueued child is not
completed, not pending by name, not in the node map, below the hard level
limit, and sits one level below its parent. -/
theorem newChildItems_spec (c : AnalyzerConfig) (st : AnalyzerState)
    (w : WorkItem) (m : PackageJson) (d : WorkItem)
    (hd : d ∈ newChildItems c st w m) :
    st.completedDependencies.contains d.requestId = false
  ∧ st.pendingDependencies.any (fun p => p.name = d.name) = false
  ∧ jsMapHas st.dependencies d.name = false
  ∧ d.level < c.maxDependencyLevels
  ∧ d.level = w.level + 1 := by
  unfold newChildItems at hd
  obtain ⟨hmem, hpred⟩ := List.mem_filter.mp hd
  obtain ⟨pr, -, hpr⟩ := List.mem_map.mp hmem
  have hlvl : d.level = w.level + 1 := by rw [← hpr]
  simp only [Bool.not_eq_true, decide_eq_true_eq, not_and, Bool.and_eq_true,
    Bool.not_eq_true', decide_eq_true_eq] at hpred
  exact ⟨hpred.1, hpred.2.1, hpred.2.2.1, hpred.2.2.2, hlvl⟩

/-- Every item collected by the dev-dependency toggle has level 1, a name
absent from the node map, and comes from the dev-dependency map of some
node. -/
theorem toggleNewDeps_spec (st : AnalyzerState) :
    ∀ x ∈ toggleNewDeps st,
      x.level = 1 ∧ jsMapHas st.dependencies x.name = false
    ∧ ∃ p ∈ st.dependencies, (x.name, x.version) ∈ p.2.devDependencies := by
  unfold toggleNewDeps
  suffices h : ∀ (l : List (String × DependencyNode))
      (acc : List WorkItem),
      (∀ y ∈ l, y ∈ st.dependencies) →
      (∀ x ∈ acc, x.level = 1 ∧ jsMapHas st.dependencies x.name = false
        ∧ ∃ p ∈ st.dependencies, (x.name, x.version) ∈ p.2.devDependencies) →
      ∀ x ∈ l.foldl (fun acc p =>
        if p.2.loaded then
          acc ++ ((p.2.devDependencies.filter (fun d =>
              ¬ jsMapHas st.dependencies d.1 ∧
              ¬ st.completedDependencies.contains (d.1 ++ "@" ++ d.2) ∧
              ¬ st.pendingDependencies.any (fun q => q.name = d.1))).map
            (fun d => ({ name := d.1, version := d.2, level := 1 } : WorkItem)))
        else acc) acc,
        x.level = 1 ∧ jsMapHas st.dependencies x.name = false
      ∧ ∃ p ∈ st.dependencies, (x.name, x.version) ∈ p.2.devDependencies by
    exact h st.dependencies [] (fun y hy => hy) (fun x hx => absurd hx
      (List.not_mem_nil x))
  intro l
  induction l with
  | nil => intro acc _ hacc x hx; exact hacc x hx
  | cons p ps ih =>
    intro acc hsub hacc x hx
    rw [List.foldl_cons] at hx
    refine ih _ (fun y hy => hsub y (List.mem_cons_of_mem p hy)) ?_ x hx
    intro z hz
    by_cases hp : p.2.loaded = true
    · rw [if_pos hp] at hz
      rcases List.mem_append.mp hz with h | h
      · exact hacc z h
      · obtain ⟨d, hdmem, hdz⟩ := List.mem_map.mp h
        obtain ⟨hdm, hdpred⟩ := List.mem_filter.mp hdmem
        simp only [Bool.and_eq_true, Bool.not_eq_true', decide_eq_true_eq,
          Bool.not_eq_true] at hdpred
        refine ⟨by rw [← hdz], ?_, ?_⟩
        · rw [← hdz]
          exact hdpred.1
        · refine ⟨p, hsub p (List.mem_cons_self p ps), ?_⟩
          rw [← hdz]
          exact hdm
    · rw [if_neg hp] at hz
      exact hacc z hz

/-- `processPendingDependencies` never queues anything. -/
theorem processPendingDependencies_enqueuedLog (c : AnalyzerConfig)
    (st : AnalyzerState) :
    (processPendingDependencies c st).enqueuedLog = st.enqueuedLog := by
  unfold processPendingDependencies
  split
  · rfl
  · exact (foldl_startWorkItem_fields _ _).2.2.2.1

/-- What a successful completion adds to the queued-items log: nothing, or
children below the hard level limit. -/
theorem completeSuccess_enqueuedLog_mem (c : AnalyzerConfig) (w : WorkItem)
    (m : PackageJson) (st : AnalyzerState) :
    ∀ x ∈ (completeSuccess c w m st).enqueuedLog,
      x ∈ st.enqueuedLog ∨
      (x.level < c.maxDependencyLevels ∧ x.level = w.level + 1) := by
  intro x hx
  unfold completeSuccess at hx
  split at hx
  · exact Or.inl hx
  · dsimp only at hx
    split at hx
    · split at hx
      · exact Or.inl hx
      · rcases List.mem_append.mp hx with h | h
        · exact Or.inl h
        · obtain ⟨-, -, -, h4, h5⟩ := newChildItems_spec _ _ _ _ _ h
          exact Or.inr ⟨h4, h5⟩
    · exact Or.inl hx

/-- A failed completion never queues anything. -/
theorem completeFailure_enqueuedLog (w : WorkItem) (msg : String)
    (st : AnalyzerState) :
    (completeFailure w msg st).enqueuedLog = st.enqueuedLog := by
  unfold completeFailure
  split <;> rfl

/-- What the dev-dependency toggle adds to the queued-items log: nothing,
or level-1 items. -/
theorem toggleDevDependencies_enqueuedLog_mem (st : AnalyzerState) :
    ∀ x ∈ (toggleDevDependencies st).enqueuedLog,
      x ∈ st.enqueuedLog ∨ x.level = 1 := by
  intro x hx
  unfold toggleDevDependencies at hx
  split at hx
  · split at hx
    · exact Or.inl hx
    · rcases List.mem_append.mp hx with h | h
      · exact Or.inl h
      · exact Or.inr (toggleNewDeps_spec st x h).1
  · exact Or.inl hx

/-- `analyzeDependencies` seeds the queued-items log with level-1 items. -/
theorem analyzeDependencies_enqueuedLog_mem (pkg : PackageJson)
    (dev : Bool) (st : AnalyzerState) :
    ∀ x ∈ (analyzeDependencies pkg dev st).enqueuedLog,
      x ∈ st.enqueuedLog ∨ x.level = 1 := by
  intro x hx
  unfold analyzeDependencies at hx
  dsimp only at hx
  rcases List.mem_append.mp hx with h | h
  · exact Or.inl h
  · obtain ⟨pr, -, hpr⟩ := List.mem_map.mp h
    right
    rw [← hpr]

/-! ## Claim C3 — name-level dedup of fetch dispatches -/

/-- A root depending on `a` and `b`. -/
def rootC3 : PackageJson :=
  { name := "app", version := "1.0.0"
    dependencies := some [("a", "1.0.0"), ("b", "1.0.0")] }

/-- `b`'s manifest requires `a` at a different version. -/
def manifestB : PackageJson :=
  { name := "b", version := "1.0.0", dependencies := some [("a", "2.0.0")] }

/-- The interleaving that defeats the dedup: both seeds are dispatched,
`b` completes and enqueues `a@2.0.0` while `a@1.0.0` is still in flight
(hence in none of the completed set, the queue or the node map), and the
scheduler dispatches it. -/
def traceC3 : List AnalyzerAction :=
  [.analyze rootC3 false, .process,
   .succeed { name := "b", version := "1.0.0", level := 1 } manifestB,
   .process]

/-- C3 counterexample: the trace `traceC3` dispatches two fetch tasks for
the package name `a`, and the second dispatch raises the active-task count
from 1 to 2 — the claimed name-level at-most-once dispatch property fails
for a name whose only fetch is in flight. -/
theorem dedup_by_name_counterexample :
    ((analyzerRun {} {} traceC3).dispatched.filter
        (fun w => w.name = "a")).length = 2
  ∧ (analyzerRun {} {} (traceC3.take 3)).activeRequests = 1
  ∧ (analyzerRun {} {} traceC3).activeRequests = 2 := by
  refine ⟨by decide, by decide, by decide⟩

/-- C3 amended: the dedup the code actually enforces.  (1) A dispatch
attempt for a work item whose `name@version` id is already completed is a
no-op on the whole state.  (2) A completion enqueues a child only if its id
is not completed, its name is not in the pending queue, its name is not in
the node map, and its level is below the hard limit.  (3) The expand
operation is idempotent: a second `loadDependencies` for the same name is a
no-op, since the node is already loading or loaded.  No guard covers a
name whose only fetch is in flight, which is what the counterexample
exploits. -/
theorem dedup_guards_amended :
    (∀ (st : AnalyzerState) (w : WorkItem),
      st.completedDependencies.contains w.requestId = true →
      startWorkItem st w = st)
  ∧ (∀ (c : AnalyzerConfig) (st : AnalyzerState) (w : WorkItem)
       (m : PackageJson) (d : WorkItem), d ∈ newChildItems c st w m →
      st.completedDependencies.contains d.requestId = false
    ∧ st.pendingDependencies.any (fun p => p.name = d.name) = false
    ∧ jsMapHas st.dependencies d.name = false
    ∧ d.level < c.maxDependencyLevels)
  ∧ (∀ (hs : HookWorkerState) (n : String),
      loadDependenciesStep (loadDependenciesStep hs n) n =
        loadDependenciesStep hs n) := by
  refine ⟨?_, ?_, ?_⟩
  · intro st w h
    unfold startWorkItem
    rw [if_pos h]
  · intro c st w m d hd
    obtain ⟨h1, h2, h3, h4, -⟩ := newChildItems_spec c st w m d hd
    exact ⟨h1, h2, h3, h4⟩
  · intro hs n
    rcases hg : jsMapGet hs.dependencies n with - | node
    · have h0 : loadDependenciesStep hs n = hs := by
        unfold loadDependenciesStep; rw [hg]
      rw [h0, h0]
    · by_cases hl : (node.loaded = true ∨ node.loading = true)
      · have h0 : loadDependenciesStep hs n = hs := by
          unfold loadDependenciesStep
          rw [hg]
          dsimp only
          rw [if_pos hl]
        rw [h0, h0]
      · have h0 : loadDependenciesStep hs n =
            { dependencies :=
                jsMapSet hs.dependencies n { node with loading := true }
              postedLog := hs.postedLog ++ ["single-" ++ n] } := by
          unfold loadDependenciesStep
          rw [hg]
          dsimp only
          rw [if_neg hl]
        rw [h0]
        have hg2 : jsMapGet
            (jsMapSet hs.dependencies n { node with loading := true }) n =
            some { node with loading := true } := jsMapGet_set_self _ _ _
        unfold loadDependenciesStep
        rw [hg2]
        dsimp only
        rw [if_pos (Or.inr rfl)]

/-- Witness for C3's amended guards at concrete inputs. -/
theorem dedup_guards_amended_witness :
    startWorkItem
        { completedDependencies := ["a@1.0.0"] }
        { name := "a", version := "1.0.0", level := 1 } =
      { completedDependencies := ["a@1.0.0"] }
  ∧ ({} : AnalyzerState).completedDependencies.contains
      (WorkItem.requestId { name := "a", version := "2.0.0", level := 2 }) =
        false :=
  ⟨dedup_guards_amended.1 _ _ (by decide),
   (dedup_guards_amended.2.1 {} {}
     { name := "b", version := "1.0.0", level := 1 } manifestB
     { name := "a", version := "2.0.0", level := 2 } (by decide)).1⟩

/-! ## Claim C4 — the configured depth bound is never exceeded -/

/-- A root depending only on `a`, for the depth-2 chain scenario. -/
def rootC4 : PackageJson :=
  { name := "app", version := "1.0.0"
    dependencies := some [("a", "^1.0.0")] }

/-- The registry of the scenario: `a` depends on `b`, `b` on `c`, `c` on
nothing. -/
def oracleC4 : String → PackageJson
  | "a" => { name := "a", version := "1.0.0"
             dependencies := some [("b", "^1.0.0")] }
  | "b" => { name := "b", version := "1.0.0"
             dependencies := some [("c", "^1.0.0")] }
  | n => { name := n, version := "1.0.0", dependencies := some [] }

/-- The configuration with maximum depth 2. -/
def cfgD2 : AnalyzerConfig := { maxDependencyLevels := 2 }

/-- Actions consistent with the depth-2 chain scenario: sessions start from
`rootC4` and every fetch resolves according to `oracleC4`. -/
def scenarioC4Action : AnalyzerAction → Prop
  | .analyze pkg _ => pkg = rootC4
  | .succeed w m => m = oracleC4 w.name
  | _ => True

/-- The invariant carrying the depth-2 chain scenario: every queued,
in-flight or dispatched item is the level-1 seed name `a`, and no node in
the map has dev dependencies. -/
def C4Inv (st : AnalyzerState) : Prop :=
  (∀ w ∈ st.pendingDependencies, w.level = 1 ∧ w.name = "a")
  ∧ (∀ w ∈ st.inflight, w.level = 1 ∧ w.name = "a")
  ∧ (∀ w ∈ st.dispatched, w.name = "a")
  ∧ (∀ p ∈ st.dependencies, p.2.devDependencies = [])

/-- An entry of `jsMapSet m k v` is an old entry or the new pair. -/
theorem jsMapSet_mem {α : Type} {m : List (String × α)} {k : String}
    {v : α} {p : String × α} (hp : p ∈ jsMapSet m k v) :
    p ∈ m ∨ p = (k, v) := by
  unfold jsMapSet at hp
  split at hp
  · obtain ⟨q, hq, hqp⟩ := List.mem_map.mp hp
    by_cases h : q.1 = k
    · right; rw [← hqp, if_pos h]
    · left; rw [← hqp, if_neg h]; exact hq
  · rcases List.mem_append.mp hp with h | h
    · exact Or.inl h
    · exact Or.inr (List.mem_singleton.mp h)

/-- The `useEffect` blocks preserve the scenario invariant. -/
theorem analyzerEffectC4Inv (st : AnalyzerState) (h : C4Inv st) :
    C4Inv (analyzerEffect cfgD2 st) := by
  obtain ⟨l, pr, he⟩ := analyzerEffect_eq cfgD2 st
  rw [he]
  exact h

/-- C4: (general bound) for every configured maximum depth of at least 1,
every work item ever enqueued in any trace has level at most that maximum;
(scenario) with maximum depth 2, a root depending on `a`, `a` on `b` and
`b` on `c`, no fetch for `c` (nor even `b`) is ever dispatched in any
trace consistent with that registry. -/
theorem depth_bound :
    (∀ (c : AnalyzerConfig), 1 ≤ c.maxDependencyLevels →
      ∀ (acts : List AnalyzerAction),
        ∀ w ∈ (analyzerRun c {} acts).enqueuedLog,
          w.level ≤ c.maxDependencyLevels)
  ∧ (∀ (acts : List AnalyzerAction), (∀ a ∈ acts, scenarioC4Action a) →
      ∀ w ∈ (analyzerRun cfgD2 {} acts).dispatched, w.name ≠ "c") := by
  constructor
  · intro c hD acts
    refine @analyzerRun_preserves (fun st => ∀ w ∈ st.enqueuedLog,
      w.level ≤ c.maxDependencyLevels) (fun _ => True) c
      ?_ acts {} (fun _ _ => trivial) (fun w hw => absurd hw
        (List.not_mem_nil w))
    intro st a _ hP
    cases a with
    | analyze pkg dev =>
      intro w hw
      rw [show analyzerStep c st (.analyze pkg dev) =
        analyzerEffect c (analyzeDependencies pkg dev st) from rfl,
        (analyzerEffect_preserves c _).2.2.2.2.2.1] at hw
      rcases analyzeDependencies_enqueuedLog_mem pkg dev st w hw with h | h
      · exact hP w h
      · rw [h]; exact hD
    | process =>
      intro w hw
      rw [show analyzerStep c st .process =
        analyzerEffect c (processPendingDependencies c st) from rfl,
        (analyzerEffect_preserves c _).2.2.2.2.2.1,
        processPendingDependencies_enqueuedLog] at hw
      exact hP w hw
    | succeed v m =>
      intro w hw
      rw [show analyzerStep c st (.succeed v m) =
        analyzerEffect c (completeSuccess c v m st) from rfl,
        (analyzerEffect_preserves c _).2.2.2.2.2.1] at hw
      rcases completeSuccess_enqueuedLog_mem c v m st w hw with h | h
      · exact hP w h
      · exact Nat.le_of_lt h.1
    | fail v msg =>
      intro w hw
      rw [show analyzerStep c st (.fail v msg) =
        analyzerEffect c (completeFailure v msg st) from rfl,
        (analyzerEffect_preserves c _).2.2.2.2.2.1,
        completeFailure_enqueuedLog] at hw
      exact hP w hw
    | toggleDev =>
      intro w hw
      rw [show analyzerStep c st .toggleDev =
        analyzerEffect c (toggleDevDependencies st) from rfl,
        (analyzerEffect_preserves c _).2.2.2.2.2.1] at hw
      rcases toggleDevDependencies_enqueuedLog_mem st w hw with h | h
      · exact hP w h
      · rw [h]; exact hD
  · intro acts hacts
    suffices h : C4Inv (analyzerRun cfgD2 {} acts) by
      intro w hw hname
      have := (h.2.2.1 w hw)
      rw [hname] at this
      exact absurd this (by decide)
    refine @analyzerRun_preserves C4Inv scenarioC4Action
      cfgD2 ?_ acts {} hacts ?_
    · intro st a hcond hP
      obtain ⟨hpend, hinf, hdisp, hdev⟩ := hP
      cases a with
      | analyze pkg dev =>
        have hpkg : pkg = rootC4 := hcond
        subst hpkg
        refine ⟨?_, ?_, ?_, ?_⟩ <;>
          rw [show analyzerStep cfgD2 st (.analyze rootC4 dev) =
            analyzerEffect cfgD2 (analyzeDependencies rootC4 dev st)
            from rfl]
        · rw [(analyzerEffect_preserves cfgD2 _).2.1]
          intro w hw
          unfold analyzeDependencies at hw
          dsimp only at hw
          obtain ⟨pr, hpr, hw'⟩ := List.mem_map.mp hw
          have hlist : jsMerge (rootC4.dependencies.getD [])
              (if dev = true then rootC4.devDependencies.getD [] else []) =
              [("a", "^1.0.0")] := by
            cases dev <;> rfl
          rw [hlist] at hpr
          have hpr' : pr = ("a", "^1.0.0") := List.mem_singleton.mp hpr
          rw [← hw', hpr']
          exact ⟨rfl, rfl⟩
        · rw [(analyzerEffect_preserves cfgD2 _).2.2.2.1]
          intro w hw
          exact hinf w hw
        · rw [(analyzerEffect_preserves cfgD2 _).2.2.2.2.1]
          intro w hw
          exact hdisp w hw
        · rw [(analyzerEffect_preserves cfgD2 _).1]
          intro p hp
          unfold analyzeDependencies at hp
          dsimp only at hp
          rcases List.mem_singleton.mp hp with rfl
          decide
      | process =>
        rw [show analyzerStep cfgD2 st .process =
          analyzerEffect cfgD2 (processPendingDependencies cfgD2 st)
          from rfl]
        unfold processPendingDependencies
        split
        · exact analyzerEffectC4Inv _ ⟨hpend, hinf, hdisp, hdev⟩
        · refine analyzerEffectC4Inv _ ?_
          obtain ⟨g1, g2, g3, g4, g5, g6, g7, g8, g9, g10, g11, g12⟩ :=
            foldl_startWorkItem_fields
              (st.pendingDependencies.take ((cfgD2.maxConcurrentRequests : Int) - st.activeRequests).toNat)
              { st with pendingDependencies := st.pendingDependencies.drop ((cfgD2.maxConcurrentRequests : Int) - st.activeRequests).toNat }
          refine ⟨?_, ?_, ?_, ?_⟩
          · rw [g2]
            intro w hw
            exact hpend w (List.mem_of_mem_drop hw)
          · intro w hw
            rcases g11 w hw with h | h
            · exact hinf w h
            · exact hpend w (List.mem_of_mem_take h)
          · intro w hw
            rcases g12 w hw with h | h
            · exact hdisp w h
            · exact (hpend w (List.mem_of_mem_take h)).2
          · rw [g1]
            intro p hp
            exact hdev p hp
      | succeed v m =>
        have hm : m = oracleC4 v.name := hcond
        rw [show analyzerStep cfgD2 st (.succeed v m) =
          analyzerEffect cfgD2 (completeSuccess cfgD2 v m st) from rfl]
        refine analyzerEffectC4Inv _ ?_
        unfold completeSuccess
        split
        · exact ⟨hpend, hinf, hdisp, hdev⟩
        · next hvin =>
          have hv : v ∈ st.inflight := by
            have := hvin
            by_cases h : v ∈ st.inflight
            · exact h
            · exact absurd (by simpa using h) this
          have hlvl : v.level = 1 := (hinf v hv).1
          have hname : v.name = "a" := (hinf v hv).2
          have hnotlt : ¬ v.level < cfgD2.maxDependencyLevels - 1 := by
            rw [hlvl]; decide
          dsimp only
          rw [if_neg hnotlt]
          refine ⟨?_, ?_, ?_, ?_⟩
          · intro w hw
            exact hpend w hw
          · intro w hw
            exact hinf w (List.mem_of_mem_erase hw)
          · intro w hw
            exact hdisp w hw
          · intro p hp
            rcases jsMapSet_mem hp with h | h
            · exact hdev p h
            · rw [h]
              show (resolvedNodeOf v m).devDependencies = []
              rw [hm]
              unfold resolvedNodeOf
              have : (oracleC4 v.name).devDependencies = none := by
                unfold oracleC4
                split <;> rfl
              rw [this]
              rfl
      | fail v msg =>
        rw [show analyzerStep cfgD2 st (.fail v msg) =
          analyzerEffect cfgD2 (completeFailure v msg st) from rfl]
        refine analyzerEffectC4Inv _ ?_
        unfold completeFailure
        split
        · exact ⟨hpend, hinf, hdisp, hdev⟩
        · refine ⟨fun w hw => hpend w hw, ?_, fun w hw => hdisp w hw, ?_⟩
          · intro w hw
            exact hinf w (List.mem_of_mem_erase hw)
          · intro p hp
            rcases jsMapSet_mem hp with h | h
            · exact hdev p h
            · rw [h]; rfl
      | toggleDev =>
        rw [show analyzerStep cfgD2 st .toggleDev =
          analyzerEffect cfgD2 (toggleDevDependencies st) from rfl]
        refine analyzerEffectC4Inv _ ?_
        unfold toggleDevDependencies
        split
        · split
          · exact ⟨hpend, hinf, hdisp, hdev⟩
          · refine ⟨?_, hinf, hdisp, hdev⟩
            intro w hw
            rcases List.mem_append.mp hw with h | h
            · exact hpend w h
            · obtain ⟨-, -, p, hp, hmem⟩ := toggleNewDeps_spec st w h
              rw [hdev p hp] at hmem
              exact absurd hmem (List.not_mem_nil _)
        · exact ⟨hpend, hinf, hdisp, hdev⟩
    · exact ⟨fun w hw => absurd hw (List.not_mem_nil w),
        fun w hw => absurd hw (List.not_mem_nil w),
        fun w hw => absurd hw (List.not_mem_nil w),
        fun p hp => absurd hp (List.not_mem_nil p)⟩

/-- Witness for C4 at the default configuration and the scenario trace. -/
theorem depth_bound_witness :
    ({ name := "a", version := "^1.0.0", level := 1 } : WorkItem).level ≤
      ({} : AnalyzerConfig).maxDependencyLevels
  ∧ ({ name := "a", version := "^1.0.0", level := 1 } : WorkItem).name ≠
      "c" := by
  constructor
  · exact depth_bound.1 {} (by decide) [.analyze rootC4 true]
      { name := "a", version := "^1.0.0", level := 1 } (by decide)
  · refine depth_bound.2 [.analyze rootC4 true, .process] ?_
      { name := "a", version := "^1.0.0", level := 1 } (by decide)
    intro a ha
    rcases List.mem_cons.mp ha with h | h
    · rw [h]; exact rfl
    · rcases List.mem_singleton.mp h with rfl
      exact trivial

/-! ## Claim C5 — the root node -/

/-- A pathological root manifest that lists its own name among its
dependencies. -/
def selfRoot : PackageJson :=
  { name := "app", version := "1.0.0"
    dependencies := some [("app", "0.0.1")] }

/-- Analyze the self-dependent root, dispatch the seeded item — a fetch
for the root's own name — and let it fail. -/
def traceC5 : List AnalyzerAction :=
  [.analyze selfRoot false, .process,
   .fail { name := "app", version := "0.0.1", level := 1 } "boom"]

/-- C5 counterexample: when the root manifest lists its own name as a
dependency, the session dispatches a registry fetch for the root package,
and its completion overwrites the root node — the graph then carries a
failure node for the root instead of the node built from the user-supplied
manifest. -/
theorem root_node_counterexample :
    ((analyzerRun {} {} traceC5).dispatched.filter
        (fun w => w.name = "app")).length = 1
  ∧ jsMapGet (analyzerRun {} {} traceC5).dependencies "app" =
      some (errorNodeOf { name := "app", version := "0.0.1", level := 1 }
        "boom")
  ∧ jsMapGet (analyzerRun {} {} traceC5).dependencies "app" ≠
      some (rootNodeOf selfRoot) := by
  refine ⟨by decide, by decide, by decide⟩

/-- The session invariant for C5: the root node, as built from the user
manifest, is in the map under the root name, and no queued, in-flight or
dispatched work item carries the root name. -/
def RootInv (pkg : PackageJson) (st : AnalyzerState) : Prop :=
  jsMapGet st.dependencies pkg.name = some (rootNodeOf pkg)
  ∧ (∀ w ∈ st.pendingDependencies, w.name ≠ pkg.name)
  ∧ (∀ w ∈ st.inflight, w.name ≠ pkg.name)
  ∧ (∀ w ∈ st.dispatched, w.name ≠ pkg.name)

/-- The `useEffect` blocks preserve the root invariant. -/
theorem analyzerEffectRootInv (c : AnalyzerConfig) (pkg : PackageJson)
    (st : AnalyzerState) (h : RootInv pkg st) :
    RootInv pkg (analyzerEffect c st) := by
  obtain ⟨l, pr, he⟩ := analyzerEffect_eq c st
  rw [he]
  exact h

/-- C5 amended: provided the root manifest does not list its own name
among the dependencies it seeds, then in every reachable state of the
session the root's node is present, equal to the Resolved node built
directly from the user-supplied manifest, and no fetch for the root's name
is ever dispatched.  (The proviso is forced by the counterexample: a
self-dependent root is seeded, fetched, and overwritten.) -/
theorem root_node_invariant (c : AnalyzerConfig) (pkg : PackageJson)
    (dev : Bool) (acts : List AnalyzerAction)
    (hseed : ∀ pr ∈ jsMerge (pkg.dependencies.getD [])
      (if dev = true then pkg.devDependencies.getD [] else []),
      pr.1 ≠ pkg.name)
    (hacts : ∀ a ∈ acts, ∀ (q : PackageJson) (d : Bool),
      a ≠ AnalyzerAction.analyze q d) :
    jsMapGet (analyzerRun c (analyzerStep c {} (.analyze pkg dev))
        acts).dependencies pkg.name = some (rootNodeOf pkg)
  ∧ (∀ w ∈ (analyzerRun c (analyzerStep c {} (.analyze pkg dev))
        acts).dispatched, w.name ≠ pkg.name) := by
  suffices h : RootInv pkg
      (analyzerRun c (analyzerStep c {} (.analyze pkg dev)) acts) by
    exact ⟨h.1, h.2.2.2⟩
  refine @analyzerRun_preserves (RootInv pkg)
    (fun a => ∀ (q : PackageJson) (d : Bool),
      a ≠ AnalyzerAction.analyze q d) c ?_ acts _ hacts ?_
  · intro st a hcond hP
    obtain ⟨hget, hpend, hinf, hdisp⟩ := hP
    cases a with
    | analyze q d => exact absurd rfl (hcond q d)
    | process =>
      rw [show analyzerStep c st .process =
        analyzerEffect c (processPendingDependencies c st) from rfl]
      refine analyzerEffectRootInv c pkg _ ?_
      unfold processPendingDependencies
      split
      · exact ⟨hget, hpend, hinf, hdisp⟩
      · obtain ⟨g1, g2, g3, g4, g5, g6, g7, g8, g9, g10, g11, g12⟩ :=
          foldl_startWorkItem_fields
            (st.pendingDependencies.take ((c.maxConcurrentRequests : Int) - st.activeRequests).toNat)
            { st with pendingDependencies := st.pendingDependencies.drop ((c.maxConcurrentRequests : Int) - st.activeRequests).toNat }
        refine ⟨?_, ?_, ?_, ?_⟩
        · rw [g1]; exact hget
        · rw [g2]
          intro w hw
          exact hpend w (List.mem_of_mem_drop hw)
        · intro w hw
          rcases g11 w hw with h | h
          · exact hinf w h
          · exact hpend w (List.mem_of_mem_take h)
        · intro w hw
          rcases g12 w hw with h | h
          · exact hdisp w h
          · exact hpend w (List.mem_of_mem_take h)
    | succeed v m =>
      rw [show analyzerStep c st (.succeed v m) =
        analyzerEffect c (completeSuccess c v m st) from rfl]
      refine analyzerEffectRootInv c pkg _ ?_
      unfold completeSuccess
      split
      · exact ⟨hget, hpend, hinf, hdisp⟩
      · next hvin =>
        have hv : v ∈ st.inflight := by
          by_cases h : v ∈ st.inflight
          · exact h
          · exact absurd (by simpa using h) hvin
        have hvname : v.name ≠ pkg.name := hinf v hv
        have hget2 : jsMapGet (jsMapSet st.dependencies v.name
            (resolvedNodeOf v m)) pkg.name = some (rootNodeOf pkg) := by
          rw [jsMapGet_set_ne _ _ _ _ (fun he => hvname he.symm)]
          exact hget
        dsimp only
        split
        · split
          · exact ⟨hget2, hpend, fun w hw =>
              hinf w (List.mem_of_mem_erase hw), hdisp⟩
          · refine ⟨hget2, ?_, fun w hw =>
              hinf w (List.mem_of_mem_erase hw), hdisp⟩
            intro w hw
            rcases List.mem_append.mp hw with h | h
            · exact hpend w h
            · obtain ⟨-, -, hhas, -, -⟩ := newChildItems_spec _ _ _ _ _ h
              intro hwname
              rw [hwname] at hhas
              rw [jsMapHas_of_get _ _ _ hget2] at hhas
              exact Bool.noConfusion hhas
        · exact ⟨hget2, hpend, fun w hw =>
            hinf w (List.mem_of_mem_erase hw), hdisp⟩
    | fail v msg =>
      rw [show analyzerStep c st (.fail v msg) =
        analyzerEffect c (completeFailure v msg st) from rfl]
      refine analyzerEffectRootInv c pkg _ ?_
      unfold completeFailure
      split
      · exact ⟨hget, hpend, hinf, hdisp⟩
      · next hvin =>
        have hv : v ∈ st.inflight := by
          by_cases h : v ∈ st.inflight
          · exact h
          · exact absurd (by simpa using h) hvin
        have hvname : v.name ≠ pkg.name := hinf v hv
        refine ⟨?_, hpend, fun w hw =>
          hinf w (List.mem_of_mem_erase hw), hdisp⟩
        rw [jsMapGet_set_ne _ _ _ _ (fun he => hvname he.symm)]
        exact hget
    | toggleDev =>
      rw [show analyzerStep c st .toggleDev =
        analyzerEffect c (toggleDevDependencies st) from rfl]
      refine analyzerEffectRootInv c pkg _ ?_
      unfold toggleDevDependencies
      split
      · split
        · exact ⟨hget, hpend, hinf, hdisp⟩
        · refine ⟨hget, ?_, hinf, hdisp⟩
          intro w hw
          rcases List.mem_append.mp hw with h | h
          · exact hpend w h
          · obtain ⟨-, hhas, -⟩ := toggleNewDeps_spec st w h
            intro hwname
            rw [hwname] at hhas
            rw [jsMapHas_of_get _ _ _ hget] at hhas
            exact Bool.noConfusion hhas
      · exact ⟨hget, hpend, hinf, hdisp⟩
  · rw [show analyzerStep c {} (.analyze pkg dev) =
      analyzerEffect c (analyzeDependencies pkg dev {}) from rfl]
    refine analyzerEffectRootInv c pkg _ ?_
    unfold analyzeDependencies
    dsimp only
    refine ⟨?_, ?_, ?_, ?_⟩
    · unfold jsMapGet
      rw [List.find?_cons_of_pos _ (by simp)]
    · intro w hw
      obtain ⟨pr, hpr, hw'⟩ := List.mem_map.mp hw
      rw [← hw']
      exact hseed pr hpr
    · intro w hw
      exact absurd hw (List.not_mem_nil w)
    · intro w hw
      exact absurd hw (List.not_mem_nil w)

/-- Witness for C5's amended invariant on a well-formed root. -/
theorem root_node_invariant_witness :
    jsMapGet (analyzerRun {} (analyzerStep {} {}
        (.analyze rootC3 false)) [.process]).dependencies "app" =
      some (rootNodeOf rootC3) := by
  have h := root_node_invariant {} rootC3 false [.process]
    (by intro pr hpr; fin_cases hpr <;> decide)
    (by intro a ha q d
        rcases List.mem_singleton.mp ha with rfl
        exact fun he => AnalyzerAction.noConfusion he)
  exact h.1

/-! ## Claim C8 — progress counter semantics -/

/-- A root with one dependency, for the progress counterexample. -/
def rootC8 : PackageJson :=
  { name := "app", version := "1.0.0"
    dependencies := some [("a", "1.0.0")] }

/-- C8 counterexample: at the very first published observation of a
session (right after seeding), the progress tuple shows `current = 0`
while the graph already holds one terminal node (the Resolved root), so
`current` does not equal the count of terminal nodes. -/
theorem progress_counterexample :
    (analyzerRun {} {} [.analyze rootC8 true]).loading = true
  ∧ (analyzerRun {} {} [.analyze rootC8 true]).progress.total = 1
  ∧ (analyzerRun {} {} [.analyze rootC8 true]).progress.current = 0
  ∧ terminalCount (analyzerRun {} {} [.analyze rootC8 true]).dependencies = 1
  ∧ (analyzerRun {} {} [.analyze rootC8 true]).progress.current ≠
      terminalCount (analyzerRun {} {} [.analyze rootC8 true]).dependencies := by
  refine ⟨by decide, by decide, by decide, by decide, by decide⟩

/-- The progress session invariant: while loading, the published `current`
never exceeds the number of completed work items. -/
def ProgressInv (st : AnalyzerState) : Prop :=
  st.loading = true →
    st.progress.current ≤ st.completedDependencies.length

/-- `setAdd` never shrinks a set. -/
theorem setAdd_length_le (s : List String) (x : String) :
    s.length ≤ (setAdd s x).length := by
  unfold setAdd
  split
  · exact le_refl _
  · simp

/-- When the visible total is positive the effect publishes the completed
count; otherwise it publishes nothing. -/
theorem analyzerPublish_progress (c : AnalyzerConfig) (st : AnalyzerState) :
    (visibleTotal st > 0 ∧ (analyzerPublish c st).progress.current =
      st.completedDependencies.length) ∨
    (¬ visibleTotal st > 0 ∧ analyzerPublish c st = st) := by
  unfold analyzerPublish
  split
  · next h => exact Or.inl ⟨h, rfl⟩
  · next h => exact Or.inr ⟨h, rfl⟩

/-- `processPendingDependencies` does not touch progress, loading or the
completed set. -/
theorem processPendingDependencies_facts (c : AnalyzerConfig)
    (st : AnalyzerState) :
    (processPendingDependencies c st).progress = st.progress
  ∧ (processPendingDependencies c st).loading = st.loading
  ∧ (processPendingDependencies c st).completedDependencies =
      st.completedDependencies := by
  unfold processPendingDependencies
  split
  · exact ⟨rfl, rfl, rfl⟩
  · obtain ⟨g1, g2, g3, g4, g5, g6, g7, g8, g9, g10, g11, g12⟩ :=
      foldl_startWorkItem_fields
        (st.pendingDependencies.take ((c.maxConcurrentRequests : Int) - st.activeRequests).toNat)
        { st with pendingDependencies := st.pendingDependencies.drop ((c.maxConcurrentRequests : Int) - st.activeRequests).toNat }
    exact ⟨g10, g9, g3⟩

/-- A successful completion does not touch progress or loading and only
grows the completed set. -/
theorem completeSuccess_facts (c : AnalyzerConfig) (w : WorkItem)
    (m : PackageJson) (st : AnalyzerState) :
    (completeSuccess c w m st).progress = st.progress
  ∧ (completeSuccess c w m st).loading = st.loading
  ∧ st.completedDependencies.length ≤
      (completeSuccess c w m st).completedDependencies.length := by
  unfold completeSuccess
  split
  · exact ⟨rfl, rfl, le_refl _⟩
  · dsimp only
    split
    · split
      · exact ⟨rfl, rfl, setAdd_length_le _ _⟩
      · exact ⟨rfl, rfl, setAdd_length_le _ _⟩
    · exact ⟨rfl, rfl, setAdd_length_le _ _⟩

/-- A failed completion does not touch progress or loading and only grows
the completed set. -/
theorem completeFailure_facts (w : WorkItem) (msg : String)
    (st : AnalyzerState) :
    (completeFailure w msg st).progress = st.progress
  ∧ (completeFailure w msg st).loading = st.loading
  ∧ st.completedDependencies.length ≤
      (completeFailure w msg st).completedDependencies.length := by
  unfold completeFailure
  split
  · exact ⟨rfl, rfl, le_refl _⟩
  · exact ⟨rfl, rfl, setAdd_length_le _ _⟩

/-- The toggle does not touch progress or the completed set; it leaves
`loading` alone unless it queues items, in which case it turns the flag
and the visibility on with a positive total. -/
theorem toggleDevDependencies_facts (st : AnalyzerState) :
    (toggleDevDependencies st).progress = st.progress
  ∧ (toggleDevDependencies st).completedDependencies =
      st.completedDependencies
  ∧ ((toggleDevDependencies st).loading = st.loading ∨
      ((toggleDevDependencies st).loading = true
        ∧ (toggleDevDependencies st).showDevDependencies = true
        ∧ 0 < (toggleDevDependencies st).totalDependenciesToLoad)) := by
  unfold toggleDevDependencies
  split
  · next hsd =>
    split
    · exact ⟨rfl, rfl, Or.inl rfl⟩
    · next hne =>
      refine ⟨rfl, rfl, Or.inr ⟨rfl, by simpa using hsd, ?_⟩⟩
      have hpos : 0 < (toggleNewDeps st).length := by
        rcases Nat.eq_zero_or_pos (toggleNewDeps st).length with h | h
        · exact absurd (by simpa [List.isEmpty_iff,
            List.length_eq_zero] using h) hne
        · exact h
      exact Nat.lt_of_lt_of_le hpos (Nat.le_add_left _ _)
  · exact ⟨rfl, rfl, Or.inl rfl⟩

/-- The core of C8's amended property: for a transition `T` of the session
state that preserves progress, can only keep or raise `loading`, never
shrinks the completed set, and can set `loading` only by turning the
visible total positive, running the `useEffect` blocks afterwards (1)
preserves the invariant, (2) never lowers the published `current` while
the session stays active, and (3) leaves progress unchanged, publishes
exactly the completed count, or ends the session with zeroed progress. -/
theorem progress_step_core (c : AnalyzerConfig) (st T : AnalyzerState)
    (hpr : T.progress = st.progress)
    (hld : st.loading = true → T.loading = true)
    (hlen : st.completedDependencies.length ≤
      T.completedDependencies.length)
    (hldrev : T.loading = true → st.loading = true ∨
      (T.showDevDependencies = true ∧ 0 < T.totalDependenciesToLoad))
    (hInv : ProgressInv st) :
    ProgressInv (analyzerEffect c T)
  ∧ (st.loading = true → (analyzerEffect c T).loading = true →
      st.progress.current ≤ (analyzerEffect c T).progress.current)
  ∧ ((analyzerEffect c T).progress = st.progress ∨
     (analyzerEffect c T).progress.current =
       (analyzerEffect c T).completedDependencies.length ∨
     ((analyzerEffect c T).progress = {} ∧
       (analyzerEffect c T).loading = false)) := by
  have heff : analyzerEffect c T = analyzerComplete (analyzerPublish c T) :=
    rfl
  obtain ⟨pr0, hpub⟩ := analyzerPublish_eq c T
  rcases analyzerComplete_eq (analyzerPublish c T) with hC | hC
  · rcases analyzerPublish_progress c T with ⟨htot, hcur⟩ | ⟨htot, hid⟩
    · refine ⟨?_, ?_, ?_⟩
      · intro _
        rw [heff, hC, hcur, hpub]
      · intro hld1 _
        rw [heff, hC, hcur]
        exact le_trans (hInv hld1) hlen
      · right; left
        rw [heff, hC, hcur, hpub]
    · refine ⟨?_, ?_, ?_⟩
      · intro hload
        rw [heff, hC, hid] at hload ⊢
        rcases hldrev hload with hstl | ⟨hsd, htl⟩
        · rw [hpr]
          exact le_trans (hInv hstl) hlen
        · exact absurd (by simpa [visibleTotal, hsd] using htl) htot
      · intro _ _
        rw [heff, hC, hid, hpr]
      · left
        rw [heff, hC, hid, hpr]
  · refine ⟨?_, ?_, ?_⟩
    · intro hload
      rw [heff, hC] at hload
      simp at hload
    · intro _ hld2
      rw [heff, hC] at hld2
      simp at hld2
    · right; right
      rw [heff, hC]
      exact ⟨rfl, rfl⟩

/-- C8 amended: across every non-restart step of a session, (1) the
invariant "while loading, `current` never exceeds the completed-item
count" is preserved, (2) `current` never decreases while the session stays
active, and (3) every step leaves the progress tuple unchanged, publishes
`current` equal to the number of completed fetch work items
(`completedDependencies.size` — which excludes the root node and so can
differ from the count of terminal graph nodes), or ends the session with
zeroed progress. -/
theorem progress_current_amended (c : AnalyzerConfig) (st : AnalyzerState)
    (a : AnalyzerAction)
    (hna : ∀ (q : PackageJson) (d : Bool), a ≠ AnalyzerAction.analyze q d)
    (hInv : ProgressInv st) :
    ProgressInv (analyzerStep c st a)
  ∧ (st.loading = true → (analyzerStep c st a).loading = true →
      st.progress.current ≤ (analyzerStep c st a).progress.current)
  ∧ ((analyzerStep c st a).progress = st.progress ∨
     (analyzerStep c st a).progress.current =
       (analyzerStep c st a).completedDependencies.length ∨
     ((analyzerStep c st a).progress = {} ∧
       (analyzerStep c st a).loading = false)) := by
  cases a with
  | analyze q d => exact absurd rfl (hna q d)
  | process =>
    obtain ⟨f1, f2, f3⟩ := processPendingDependencies_facts c st
    exact progress_step_core c st _ f1 (fun h => by rw [f2]; exact h)
      (le_of_eq (by rw [f3])) (fun h => Or.inl (by rw [← f2]; exact h)) hInv
  | succeed w m =>
    obtain ⟨f1, f2, f3⟩ := completeSuccess_facts c w m st
    exact progress_step_core c st _ f1 (fun h => by rw [f2]; exact h)
      f3 (fun h => Or.inl (by rw [← f2]; exact h)) hInv
  | fail w msg =>
    obtain ⟨f1, f2, f3⟩ := completeFailure_facts w msg st
    exact progress_step_core c st _ f1 (fun h => by rw [f2]; exact h)
      f3 (fun h => Or.inl (by rw [← f2]; exact h)) hInv
  | toggleDev =>
    obtain ⟨f1, f2, f3⟩ := toggleDevDependencies_facts st
    refine progress_step_core c st _ f1 ?_ (le_of_eq (by rw [f2])) ?_ hInv
    · intro h
      rcases f3 with hsame | ⟨htrue, -, -⟩
      · rw [hsame]; exact h
      · exact htrue
    · intro h
      rcases f3 with hsame | ⟨-, hsd, htl⟩
      · exact Or.inl (by rw [← hsame]; exact h)
      · exact Or.inr ⟨hsd, htl⟩

/-- Witness for C8's amended step property at a concrete session state. -/
theorem progress_current_amended_witness :
    ProgressInv (analyzerStep {} (analyzerRun {} {} [.analyze rootC8 true])
      .process) := by
  have h := progress_current_amended {}
    (analyzerRun {} {} [.analyze rootC8 true]) .process
    (fun q d he => AnalyzerAction.noConfusion he)
    (by intro _; decide)
  exact h.1

/-- Scenario 8 of the spec: a registry where `bad` does not exist and
`good` resolves to a manifest with no dependencies. -/
def fetchC6 : String → String → Except String PackageJson := fun name _ =>
  if name = "bad" then .error "Package \"bad\" not found"
  else if name = "good" then
    .ok { name := "good", version := "1.0.0", dependencies := some [] }
  else .error "unexpected"

/-- A root manifest depending on `bad` and `good`. -/
def rootC6 : PackageJson :=
  { name := "app", version := "1.0.0"
    dependencies := some [("bad", "^1.0.0"), ("good", "^2.0.0")] }

/-- The manifest `fetchC6` returns for `good`. -/
def goodManifest : PackageJson :=
  { name := "good", version := "1.0.0", dependencies := some [] }

/-- C6: when a work item's fetch fails, `preloadDependencies` writes for
that name exactly the error node — description `Failed to load: <reason>`,
empty dependency maps, `hasNoDependencies` true — and continues with
exactly the remaining sibling worklist, so the failure terminates only that
branch and never escapes the (total) traversal.  Concretely, with `bad`
unknown to the registry, the session ends with `bad` as a Failed node whose
description contains "not found" while its sibling `good` still resolves
to a loaded node. -/
theorem preload_failure_isolated :
    (∀ (fetch : String → String → Except String PackageJson)
       (maxLevel fuel level : Nat) (packageName version msg : String)
       (ns : List (String × String × Nat))
       (rest : List (List (String × String × Nat)))
       (visited : List String) (st : TsAnalyzerState),
      level < maxLevel →
      visited.contains (packageName ++ "@" ++ version) = false →
      fetch packageName version = .error msg →
      preloadGo fetch maxLevel (fuel + 1)
          (((packageName, version, level) :: ns) :: rest) visited st =
        preloadGo fetch maxLevel fuel (ns :: rest)
          (visited ++ [packageName ++ "@" ++ version])
          (preloadFailState st packageName version msg level
            (visited.length + 1)))
  ∧ (∀ st packageName version msg level vl,
      jsMapGet (preloadFailState st packageName version msg level
          vl).dependencies packageName =
        some (tsErrorNodeOf packageName version msg)
      ∧ (tsErrorNodeOf packageName version msg).description =
          some ("Failed to load: " ++ msg)
      ∧ (tsErrorNodeOf packageName version msg).dependencies = []
      ∧ (tsErrorNodeOf packageName version msg).devDependencies = []
      ∧ (tsErrorNodeOf packageName version msg).hasNoDependencies = true)
  ∧ jsMapGet (analyzeDependenciesTs fetchC6 10 rootC6).dependencies "bad" =
      some (tsErrorNodeOf "bad" "^1.0.0" "Package \"bad\" not found")
  ∧ jsMapGet (analyzeDependenciesTs fetchC6 10 rootC6).dependencies "good" =
      some (tsResolvedNodeOf "good" goodManifest)
  ∧ (tsResolvedNodeOf "good" goodManifest).loaded = true := by
  refine ⟨?_, ?_, by decide, by decide, by decide⟩
  · intro fetch maxLevel fuel level packageName version msg ns rest visited
      st hlvl hvis herr
    have hge : ¬ level ≥ maxLevel := not_le.mpr hlvl
    simp only [preloadGo, hge, if_false, hvis, Bool.false_eq_true, herr]
    simp [List.length_append]
  · intro st packageName version msg level vl
    exact ⟨jsMapGet_set_self _ _ _, rfl, rfl, rfl, rfl⟩

/-- Witness for C6 on a single failing work item. -/
theorem preload_failure_isolated_witness :
    jsMapGet (preloadGo fetchC6 5 (0 + 1) [[("bad", "^1.0.0", 1)]] []
        {}).dependencies "bad" =
      some (tsErrorNodeOf "bad" "^1.0.0" "Package \"bad\" not found") := by
  rw [preload_failure_isolated.1 fetchC6 5 0 1 "bad" "^1.0.0"
    "Package \"bad\" not found" [] [] [] {} (by decide) (by decide) rfl]
  decide

/-! ## Claim C9 — reset discards pending work and ignores stale results -/

/-- C9: after the pool is terminated by `reset`, the task queue and the
active-request map are empty, and delivering any completion message leaves
the pool state, the settlement log and the whole store — its node map,
progress tuple and error state included — unchanged: the result of a fetch
started before the reset is never applied. -/
theorem reset_ignores_stale_results (p : PoolState)
    (store : DependencyState) (worker : Nat) (resp : WorkerResponse) :
    (terminate p).taskQueue = []
  ∧ (terminate p).activeRequests = []
  ∧ deliverMessage (terminate p) store worker resp = (terminate p, store) := by
  refine ⟨rfl, rfl, ?_⟩
  simp [deliverMessage, handleWorkerMessage, terminate, jsMapGet, List.find?]

/-! ## Claim C10 — a worker error rejects every in-flight task -/

/-- C10: a worker `error` event makes the pool reject the promise of every
in-flight task across the whole pool (the settlement log is extended by a
rejection for each entry of `activeRequests`, in order), and the only
worker added back to the available list is the erroring one. -/
theorem processNextTask_settledLog (q : PoolState) :
    (processNextTask q).settledLog = q.settledLog := by
  unfold processNextTask
  cases hq : q.taskQueue <;> cases ha : q.availableWorkers <;> simp

theorem processNextTask_available_mem (q : PoolState) (x : Nat)
    (hx : x ∈ (processNextTask q).availableWorkers) :
    x ∈ q.availableWorkers := by
  unfold processNextTask at hx
  cases hq : q.taskQueue <;> cases ha : q.availableWorkers <;>
    rw [hq, ha] at hx <;> simp_all

/-- C10: a worker `error` event makes the pool reject the promise of every
in-flight task across the whole pool (the settlement log is extended by a
rejection for each entry of `activeRequests`, in order), and the only
worker added back to the available list is the erroring one. -/
theorem worker_error_rejects_all (p : PoolState) (w : Nat)
    (message : String) :
    (handleWorkerError p w message).settledLog =
      p.settledLog ++ p.activeRequests.map
        (fun pr => Settlement.rejectedViaWorkerError pr.2
          ("Worker error: " ++ message))
  ∧ (∀ x, x ∈ (handleWorkerError p w message).availableWorkers →
      x ∈ p.availableWorkers ∨ x = w) := by
  constructor
  · unfold handleWorkerError
    dsimp only
    by_cases hw : p.availableWorkers.contains w = true <;>
      simp only [hw, if_true, Bool.false_eq_true, if_false] <;>
      rw [processNextTask_settledLog]
  · intro x hx
    unfold handleWorkerError at hx
    dsimp only at hx
    by_cases hw : p.availableWorkers.contains w = true <;>
      simp only [hw, if_true, Bool.false_eq_true, if_false] at hx
    · have hmem := processNextTask_available_mem _ x hx
      exact Or.inl (by simpa using hmem)
    · have hmem := processNextTask_available_mem _ x hx
      exact (by simpa using hmem : x ∈ p.availableWorkers ∨ x = w)

/-! ## Claim C1 — best-match version selection -/

theorem compareVersions_zero_left (a b : String)
    (h : parseVersion a = none) : compareVersions a b = 0 := by
  unfold compareVersions
  rw [h]

theorem compareVersions_zero_right (a b : String)
    (h : parseVersion b = none) : compareVersions a b = 0 := by
  unfold compareVersions
  rw [h]
  cases parseVersion a with
  | none => rfl
  | some p =>
    rcases p with ⟨a0, a1, a2⟩
    rfl

theorem compareVersions_self (a : String) : compareVersions a a = 0 := by
  rcases h : parseVersion a with - | p
  · exact compareVersions_zero_left a a h
  · rcases p with ⟨a0, a1, a2⟩
    unfold compareVersions
    rw [h]
    dsimp only
    simp

theorem compareVersions_neg (a b : String) :
    compareVersions a b = - compareVersions b a := by
  rcases ha : parseVersion a with - | pa
  · rw [compareVersions_zero_left a b ha, compareVersions_zero_right b a ha]
    decide
  rcases hb : parseVersion b with - | pb
  · rw [compareVersions_zero_right a b hb, compareVersions_zero_left b a hb]
    decide
  rcases pa with ⟨a0, a1, a2⟩
  rcases pb with ⟨b0, b1, b2⟩
  unfold compareVersions
  rw [ha, hb]
  dsimp only
  split_ifs <;> omega

theorem compareVersions_trans (x y z : String)
    (h1 : compareVersions x y < 0) (h2 : compareVersions y z ≤ 0) :
    compareVersions x z ≤ 0 := by
  rcases hx : parseVersion x with - | px
  · rw [compareVersions_zero_left x y hx] at h1
    omega
  rcases hy : parseVersion y with - | py
  · rw [compareVersions_zero_right x y hy] at h1
    omega
  rcases hz : parseVersion z with - | pz
  · rw [compareVersions_zero_right x z hz]
  rcases px with ⟨x0, x1, x2⟩
  rcases py with ⟨y0, y1, y2⟩
  rcases pz with ⟨z0, z1, z2⟩
  unfold compareVersions at h1 h2 ⊢
  rw [hx, hy] at h1
  rw [hy, hz] at h2
  rw [hx, hz]
  dsimp only at h1 h2 ⊢
  split_ifs at h1 h2 ⊢ <;> omega

theorem jsSortInsert_perm (cmp : String → String → Int) (x : String)
    (l : List String) : List.Perm (jsSortInsert cmp x l) (x :: l) := by
  induction l with
  | nil => exact List.Perm.refl _
  | cons y ys ih =>
    unfold jsSortInsert
    split
    · exact (ih.cons y).trans (List.Perm.swap x y ys)
    · exact List.Perm.refl _

theorem jsSort_perm_aux (cmp : String → String → Int) :
    ∀ (l acc : List String),
      List.Perm (l.foldl (fun acc x => jsSortInsert cmp x acc) acc)
        (l ++ acc) := by
  intro l
  induction l with
  | nil => intro acc; exact List.Perm.refl _
  | cons x xs ih =>
    intro acc
    rw [List.foldl_cons]
    have h1 := ih (jsSortInsert cmp x acc)
    have h2 : List.Perm (xs ++ jsSortInsert cmp x acc) (xs ++ (x :: acc)) :=
      List.Perm.append_left xs (jsSortInsert_perm cmp x acc)
    have h3 : List.Perm (xs ++ (x :: acc)) (x :: (xs ++ acc)) :=
      List.perm_middle
    exact (h1.trans (h2.trans h3))

theorem jsSort_perm (cmp : String → String → Int) (l : List String) :
    List.Perm (jsSort cmp l) l := by
  have h := jsSort_perm_aux cmp l []
  rw [List.append_nil] at h
  exact h

theorem jsSortInsert_pairwise (x : String) (l : List String)
    (hl : l.Pairwise (fun a b => compareVersions a b ≤ 0)) :
    (jsSortInsert compareVersions x l).Pairwise
      (fun a b => compareVersions a b ≤ 0) := by
  induction l with
  | nil => simp [jsSortInsert]
  | cons y ys ih =>
    rw [List.pairwise_cons] at hl
    obtain ⟨hy, hys⟩ := hl
    unfold jsSortInsert
    split
    · next hc =>
      rw [List.pairwise_cons]
      constructor
      · intro z hz
        have hz' :=
          (jsSortInsert_perm compareVersions x ys).mem_iff.mp hz
        rcases List.mem_cons.mp hz' with rfl | hz''
        · exact hc
        · exact hy z hz''
      · exact ih hys
    · next hc =>
      have hxy : compareVersions x y < 0 := by
        have h1 : 0 < compareVersions y x := lt_of_not_le hc
        have h2 := compareVersions_neg x y
        omega
      rw [List.pairwise_cons]
      constructor
      · intro z hz
        rcases List.mem_cons.mp hz with rfl | hz'
        · exact le_of_lt hxy
        · exact compareVersions_trans x y z hxy (hy z hz')
      · rw [List.pairwise_cons]
        exact ⟨hy, hys⟩

theorem jsSort_pairwise (l : List String) :
    (jsSort compareVersions l).Pairwise
      (fun a b => compareVersions a b ≤ 0) := by
  suffices h : ∀ (m acc : List String),
      acc.Pairwise (fun a b => compareVersions a b ≤ 0) →
      ((m.foldl (fun acc x => jsSortInsert compareVersions x acc)
        acc).Pairwise (fun a b => compareVersions a b ≤ 0)) from
    h l [] List.Pairwise.nil
  intro m
  induction m with
  | nil => intro acc h; exact h
  | cons x xs ih =>
    intro acc h
    rw [List.foldl_cons]
    exact ih _ (jsSortInsert_pairwise x acc h)

/-- The first match in a descending-sorted list dominates every match. -/
theorem find?_desc_max {p : String → Bool} (v : String) :
    ∀ (l : List String),
      l.Pairwise (fun a b => compareVersions b a ≤ 0) →
      l.find? p = some v →
      p v = true ∧ v ∈ l ∧
        ∀ u ∈ l, p u = true → compareVersions u v ≤ 0 := by
  intro l
  induction l with
  | nil => intro _ hf; exact absurd hf (by simp)
  | cons x xs ih =>
    intro hs hf
    rw [List.pairwise_cons] at hs
    obtain ⟨hx, hxs⟩ := hs
    by_cases hp : p x = true
    · rw [List.find?_cons_of_pos _ hp] at hf
      obtain rfl := Option.some.inj hf
      refine ⟨hp, List.mem_cons_self _ _, ?_⟩
      intro u hu _
      rcases List.mem_cons.mp hu with rfl | hu'
      · rw [compareVersions_self]
      · exact hx u hu'
    · rw [List.find?_cons_of_neg _ (by simpa using hp)] at hf
      obtain ⟨h1, h2, h3⟩ := ih hxs hf
      refine ⟨h1, List.mem_cons_of_mem x h2, ?_⟩
      intro u hu hup
      rcases List.mem_cons.mp hu with rfl | hu'
      · exact absurd hup hp
      · exact h3 u hu' hup

/-- The head of a descending-sorted list dominates every element. -/
theorem head?_desc_max (v : String) (l : List String)
    (hs : l.Pairwise (fun a b => compareVersions b a ≤ 0))
    (hh : l.head? = some v) :
    v ∈ l ∧ ∀ u ∈ l, compareVersions u v ≤ 0 := by
  cases l with
  | nil => exact absurd hh (by simp)
  | cons x xs =>
    obtain rfl : x = v := Option.some.inj hh
    rw [List.pairwise_cons] at hs
    refine ⟨List.mem_cons_self _ _, ?_⟩
    intro u hu
    rcases List.mem_cons.mp hu with rfl | hu'
    · rw [compareVersions_self]
    · exact hs.1 u hu'

/-- A caret-compatible string parses. -/
theorem compatOn_isSome (tp : Nat × Nat × Nat) (u : String)
    (h : compatOn tp u = true) : (parseVersion u).isSome = true := by
  unfold compatOn at h
  cases hu : parseVersion u with
  | none => rw [hu] at h; exact Bool.noConfusion h
  | some p => rfl

/-- A string accepted by `parseVersion` contains a dot. -/
theorem parseVersion_contains_dot (v : String) (tp : Nat × Nat × Nat)
    (h : parseVersion v = some tp) : v.toList.contains '.' = true := by
  unfold parseVersion parseVersionChars at h
  dsimp only [spanDigits] at h
  split at h
  · exact Option.noConfusion h
  · split at h
    · next heq =>
      have hdot : '.' ∈ v.toList.dropWhile Char.isDigit := by
        rw [heq]
        exact List.mem_cons_self _ _
      have hmem : '.' ∈ v.toList :=
        (List.dropWhile_sublist Char.isDigit).mem hdot
      exact List.elem_eq_true_of_mem hmem
    · exact Option.noConfusion h

/-- Core shape of `findBestMatch` once the trivial guards are settled: with a
parseable, non-empty, non-`latest` target that is not among the published
versions, the result is the first caret-compatible entry of the descending
sort of the parseable versions, falling back to its head. -/
theorem findBestMatch_eq (availableVersions : List String)
    (targetVersion : String) (tp : Nat × Nat × Nat)
    (htp : parseVersion targetVersion = some tp)
    (hne : targetVersion ≠ "") (hnl : targetVersion ≠ "latest")
    (hnp : targetVersion ∉ availableVersions) :
    findBestMatch availableVersions targetVersion =
      (match ((jsSort compareVersions (availableVersions.filter
          (fun v => (parseVersion v).isSome))).reverse).find? (compatOn tp) with
       | some v => some v
       | none => ((jsSort compareVersions (availableVersions.filter
           (fun v => (parseVersion v).isSome))).reverse).head?) := by
  have hguard : ¬ (targetVersion = "" ∨ targetVersion = "latest") := by
    rintro (h | h)
    · exact hne h
    · exact hnl h
  have hdot : targetVersion.toList.contains '.' = true :=
    parseVersion_contains_dot targetVersion tp htp
  have hnotmem : targetVersion ∉ (jsSort compareVersions
      (availableVersions.filter (fun v => (parseVersion v).isSome))).reverse := by
    intro h
    rw [List.mem_reverse,
        (jsSort_perm compareVersions _).mem_iff, List.mem_filter] at h
    exact hnp h.1
  have hcont : ((jsSort compareVersions (availableVersions.filter
      (fun v => (parseVersion v).isSome))).reverse).contains targetVersion
      = false := by
    simpa using hnotmem
  unfold findBestMatch
  rw [if_neg hguard]
  simp only [hcont, Bool.false_eq_true, if_false, hdot, if_true, htp]

/-- Membership in the descending sort of the parseable filter. -/
theorem sortedVersions_mem (availableVersions : List String) (u : String) :
    u ∈ (jsSort compareVersions (availableVersions.filter
        (fun v => (parseVersion v).isSome))).reverse ↔
      (parseVersion u).isSome = true ∧ u ∈ availableVersions := by
  rw [List.mem_reverse,
      (jsSort_perm compareVersions _).mem_iff, List.mem_filter]
  exact ⟨fun h => ⟨h.2, h.1⟩, fun h => ⟨h.2, h.1⟩⟩

/-- The descending sort is pairwise descending. -/
theorem sortedVersions_pairwise (availableVersions : List String) :
    ((jsSort compareVersions (availableVersions.filter
        (fun v => (parseVersion v).isSome))).reverse).Pairwise
      (fun a b => compareVersions b a ≤ 0) := by
  rw [List.pairwise_reverse]
  exact jsSort_pairwise _

/-- **C1, counterexample.**  With published versions `1.1.0` and `1.2.0` and
unpublished target `1.0.5`, `findBestMatch` returns the *highest*
caret-compatible version `1.2.0`, while the claim's rule (lowest compatible,
`claimLowestCompatible`) picks `1.1.0`.  And with published `1.0.0`/`2.0.0`,
dist-tag `latest = 1.0.0` and unsatisfiable target `3.5.0`, the resolve
operation returns the highest parseable version `2.0.0`: the `latest`
dist-tag fallback claimed to come first is skipped, because `findBestMatch`
already answers with the highest parseable version whenever one exists. -/
theorem best_match_counterexample :
    findBestMatch ["1.1.0", "1.2.0"] "1.0.5" = some "1.2.0" ∧
    claimLowestCompatible ["1.1.0", "1.2.0"] "1.0.5" = some "1.1.0" ∧
    some "1.2.0" ≠ some "1.1.0" ∧
    pickVersionKey ["1.0.0", "2.0.0"] (some "1.0.0") "3.5.0" = some "2.0.0" ∧
    List.contains ["1.0.0", "2.0.0"] "1.0.0" = true ∧
    some "2.0.0" ≠ some ("1.0.0" : String) := by
  refine ⟨by decide, by decide, by decide, by decide, by decide, by decide⟩

/-- **C1, amended.**  For a parseable target version not among the published
versions: (A) if some published version is caret-compatible with the target,
`findBestMatch` returns a caret-compatible published version that is
*highest* (not lowest) among the compatible ones; (B) if none is compatible
but some published version parses, it returns the highest parseable
published version — the dist-tag fallback is skipped; (C) only when no
published version parses does `findBestMatch` return `none`, and only then
does resolution fall back to the `latest` dist-tag and, failing that, to the
sort-based highest published version. -/
theorem best_match_amended (availableVersions : List String)
    (targetVersion : String) (tp : Nat × Nat × Nat)
    (htp : parseVersion targetVersion = some tp)
    (hne : targetVersion ≠ "") (hnl : targetVersion ≠ "latest")
    (hnp : targetVersion ∉ availableVersions) :
    ((∃ w ∈ availableVersions, compatOn tp w = true) →
      ∃ v, findBestMatch availableVersions targetVersion = some v ∧
        v ∈ availableVersions ∧ compatOn tp v = true ∧
        ∀ u ∈ availableVersions, compatOn tp u = true →
          compareVersions u v ≤ 0) ∧
    ((∀ w ∈ availableVersions, compatOn tp w = false) →
     (∃ w ∈ availableVersions, (parseVersion w).isSome = true) →
      ∃ v, findBestMatch availableVersions targetVersion = some v ∧
        v ∈ availableVersions ∧ (parseVersion v).isSome = true ∧
        ∀ u ∈ availableVersions, (parseVersion u).isSome = true →
          compareVersions u v ≤ 0) ∧
    ((∀ w ∈ availableVersions, (parseVersion w).isSome = false) →
      findBestMatch availableVersions targetVersion = none ∧
      (∀ l, l ≠ "" → availableVersions.contains l = true →
        pickVersionKey availableVersions (some l) targetVersion = some l) ∧
      pickVersionKey availableVersions none targetVersion =
        highestUnfiltered availableVersions) := by
  have hfb := findBestMatch_eq availableVersions targetVersion tp htp hne hnl hnp
  have hmemIff := sortedVersions_mem availableVersions
  have hpair := sortedVersions_pairwise availableVersions
  refine ⟨?_, ?_, ?_⟩
  · rintro ⟨w, hwmem, hwcompat⟩
    have hwsorted : w ∈ (jsSort compareVersions (availableVersions.filter
        (fun v => (parseVersion v).isSome))).reverse :=
      (hmemIff w).mpr ⟨compatOn_isSome tp w hwcompat, hwmem⟩
    cases hf : ((jsSort compareVersions (availableVersions.filter
        (fun v => (parseVersion v).isSome))).reverse).find? (compatOn tp) with
    | none =>
      exact absurd hwcompat (List.find?_eq_none.mp hf w hwsorted)
    | some v =>
      obtain ⟨hvc, hvmem, hmax⟩ := find?_desc_max v _ hpair hf
      refine ⟨v, ?_, ((hmemIff v).mp hvmem).2, hvc, ?_⟩
      · rw [hfb, hf]
      · intro u humem hucompat
        exact hmax u ((hmemIff u).mpr ⟨compatOn_isSome tp u hucompat, humem⟩)
          hucompat
  · rintro hnone ⟨w, hwmem, hwsome⟩
    have hwsorted : w ∈ (jsSort compareVersions (availableVersions.filter
        (fun v => (parseVersion v).isSome))).reverse :=
      (hmemIff w).mpr ⟨hwsome, hwmem⟩
    have hf : ((jsSort compareVersions (availableVersions.filter
        (fun v => (parseVersion v).isSome))).reverse).find? (compatOn tp)
        = none := by
      rw [List.find?_eq_none]
      intro x hx
      have hx' := hnone x ((hmemIff x).mp hx).2
      simp [hx']
    cases hh : ((jsSort compareVersions (availableVersions.filter
        (fun v => (parseVersion v).isSome))).reverse).head? with
    | none =>
      rw [List.head?_eq_none_iff] at hh
      rw [hh] at hwsorted
      cases hwsorted
    | some v =>
      obtain ⟨hvmem, hmax⟩ := head?_desc_max v _ hpair hh
      refine ⟨v, ?_, ((hmemIff v).mp hvmem).2, ((hmemIff v).mp hvmem).1, ?_⟩
      · rw [hfb, hf]
        exact hh
      · intro u humem husome
        exact hmax u ((hmemIff u).mpr ⟨husome, humem⟩)
  · intro hnone
    have hfilt : availableVersions.filter (fun v => (parseVersion v).isSome)
        = [] := by
      rw [List.filter_eq_nil_iff]
      intro x hx
      simp [hnone x hx]
    have hfbnone : findBestMatch availableVersions targetVersion = none := by
      rw [hfb, hfilt]
      rfl
    have hg2 : ¬ (targetVersion = "latest" ∨ targetVersion = "") := by
      rintro (h | h)
      · exact hnl h
      · exact hne h
    have hcontAvail : availableVersions.contains targetVersion = false := by
      simpa using hnp
    refine ⟨hfbnone, ?_, ?_⟩
    · intro l hl hcl
      unfold pickVersionKey
      simp only [if_neg hg2, hcontAvail, Bool.false_eq_true, if_false, hfbnone]
      rw [if_pos ⟨hl, hcl⟩]
    · unfold pickVersionKey
      simp only [if_neg hg2, hcontAvail, Bool.false_eq_true, if_false, hfbnone]

/-- Witness for the amended C1 theorem: published versions `1.1.0` and
`1.2.0`, target `1.0.5` — part (A) fires and the selected version is the
highest compatible one. -/
theorem best_match_amended_witness :
    ∃ v, findBestMatch ["1.1.0", "1.2.0"] "1.0.5" = some v ∧
      v ∈ ["1.1.0", "1.2.0"] ∧ compatOn (1, 0, 5) v = true ∧
      ∀ u ∈ ["1.1.0", "1.2.0"], compatOn (1, 0, 5) u = true →
        compareVersions u v ≤ 0 :=
  (best_match_amended ["1.1.0", "1.2.0"] "1.0.5" (1, 0, 5) (by decide)
    (by decide) (by decide) (by decide)).1 ⟨"1.1.0", by decide, by decide⟩

end Forrest
